import Mathlib

/-!
Verification of the agent-orange session/worktree core against its
natural-language specification.

Strings from the TypeScript source are modelled as `List Char` (`Str`).
Filesystem and process effects are modelled by explicit environment
records and event lists; machine integers are `Nat`.
-/

set_option maxRecDepth 4000

abbrev Str := List Char

namespace AgentOrange

/-! ## String helpers shared by the embedded code -/

/-- Least index `i ≥ start` with `l.get? i = some c` (JS `String.indexOf(c, start)`),
`none` when no such index exists. -/
def findIdx0 (c : Char) : List Char → Option Nat
  | [] => none
  | a :: as => if a = c then some 0 else (findIdx0 c as).map Nat.succ

def indexOfFrom (l : Str) (c : Char) (start : Nat) : Option Nat :=
  (findIdx0 c (l.drop start)).map (· + start)

/-! ## CLI session buffer trimming (cli-session-manager.ts) -/

def BUFFER_LIMIT : Nat := 64 * 1024

def ESC : Char := Char.ofNat 27

/-- `trimToSafeStart` from cli-session-manager.ts: trim a terminal buffer to
start at a safe boundary (next ESC, else just after next newline, else just
after next carriage return, else a hard cut to the last `BUFFER_LIMIT` bytes). -/
def trimToSafeStart (buf : Str) : Str :=
  -- the source binds `const start = buf.length - BUFFER_LIMIT` once; it is
  -- inlined here
  if buf.length ≤ BUFFER_LIMIT then buf
  else
    match indexOfFrom buf ESC (buf.length - BUFFER_LIMIT) with
    | some nextEsc => buf.drop nextEsc
    | none =>
      match indexOfFrom buf '\n' (buf.length - BUFFER_LIMIT) with
      | some nextNl => buf.drop (nextNl + 1)
      | none =>
        match indexOfFrom buf '\r' (buf.length - BUFFER_LIMIT) with
        | some nextCr => buf.drop (nextCr + 1)
        | none => buf.drop (buf.length - BUFFER_LIMIT)

/-- `appendBuffer` from cli-session-manager.ts, acting on the buffer value:
append the chunk, then trim when the ceiling is exceeded. -/
def appendBuffer (buffer chunk : Str) : Str :=
  let b := buffer ++ chunk
  if BUFFER_LIMIT < b.length then trimToSafeStart b else b

/-! ### Characterisation of `indexOfFrom` -/

theorem findIdx0_eq_some {c : Char} {l : List Char} {i : Nat}
    (h : findIdx0 c l = some i) :
    l.get? i = some c ∧ ∀ j, j < i → l.get? j ≠ some c := by
  induction l generalizing i with
  | nil => simp [findIdx0] at h
  | cons a as ih =>
    by_cases hc : a = c
    · simp [findIdx0, hc] at h
      subst h
      subst hc
      exact ⟨rfl, by omega⟩
    · simp [findIdx0, hc] at h
      obtain ⟨k, hk, hki⟩ := h
      obtain ⟨h1, h2⟩ := ih hk
      subst hki
      refine ⟨h1, ?_⟩
      intro j hj
      cases j with
      | zero => simpa using hc
      | succ j' =>
        simpa using h2 j' (by omega)

theorem findIdx0_eq_none {c : Char} {l : List Char}
    (h : findIdx0 c l = none) : ∀ j, l.get? j ≠ some c := by
  induction l with
  | nil => simp
  | cons a as ih =>
    by_cases hc : a = c
    · simp [findIdx0, hc] at h
    · simp [findIdx0, hc] at h
      intro j
      cases j with
      | zero => simpa using hc
      | succ j' => simpa using ih h j'

theorem indexOfFrom_eq_some {l : Str} {c : Char} {start i : Nat}
    (h : indexOfFrom l c start = some i) :
    start ≤ i ∧ l.get? i = some c ∧ ∀ j, start ≤ j → j < i → l.get? j ≠ some c := by
  unfold indexOfFrom at h
  cases hf : findIdx0 c (l.drop start) with
  | none => simp [hf] at h
  | some k =>
    simp [hf] at h
    obtain ⟨h1, h2⟩ := findIdx0_eq_some hf
    subst h
    rw [List.get?_drop] at h1
    refine ⟨by omega, by simpa [Nat.add_comm] using h1, ?_⟩
    intro j hj1 hj2
    have := h2 (j - start) (by omega)
    rw [List.get?_drop] at this
    have hje : start + (j - start) = j := by omega
    rwa [hje] at this

theorem indexOfFrom_eq_none {l : Str} {c : Char} {start : Nat}
    (h : indexOfFrom l c start = none) :
    ∀ j, start ≤ j → l.get? j ≠ some c := by
  unfold indexOfFrom at h
  cases hf : findIdx0 c (l.drop start) with
  | some k => simp [hf] at h
  | none =>
    intro j hj
    have := findIdx0_eq_none hf (j - start)
    rw [List.get?_drop] at this
    have hje : start + (j - start) = j := by omega
    rwa [hje] at this

theorem indexOfFrom_of_mem {l : Str} {c : Char} {start i : Nat}
    (hi : start ≤ i) (hc : l.get? i = some c) :
    ∃ k, indexOfFrom l c start = some k := by
  cases h : indexOfFrom l c start with
  | some k => exact ⟨k, rfl⟩
  | none => exact absurd hc (indexOfFrom_eq_none h i hi)

/-- `c` occurs in `l` at some position `≥ start`. -/
def occursFrom (l : Str) (c : Char) (start : Nat) : Prop :=
  ∃ i, start ≤ i ∧ l.get? i = some c

/-- `i` is the first position `≥ start` where `c` occurs in `l`. -/
def firstAtFrom (l : Str) (c : Char) (start i : Nat) : Prop :=
  start ≤ i ∧ l.get? i = some c ∧ ∀ j, start ≤ j → j < i → l.get? j ≠ some c

theorem indexOfFrom_eq_some_of_firstAtFrom {l : Str} {c : Char} {start i : Nat}
    (h : firstAtFrom l c start i) : indexOfFrom l c start = some i := by
  obtain ⟨hi, hc, hmin⟩ := h
  obtain ⟨k, hk⟩ := indexOfFrom_of_mem hi hc
  obtain ⟨hk1, hk2, hk3⟩ := indexOfFrom_eq_some hk
  rcases Nat.lt_trichotomy i k with hik | hik | hik
  · exact absurd hc (hk3 i hi hik)
  · subst hik; exact hk
  · exact absurd hk2 (hmin k hk1 hik)

theorem indexOfFrom_eq_none_of_not_occursFrom {l : Str} {c : Char} {start : Nat}
    (h : ¬ occursFrom l c start) : indexOfFrom l c start = none := by
  cases hk : indexOfFrom l c start with
  | none => rfl
  | some k =>
    obtain ⟨hk1, hk2, _⟩ := indexOfFrom_eq_some hk
    exact absurd ⟨k, hk1, hk2⟩ h

theorem head?_drop (l : List Char) (i : Nat) : (l.drop i).head? = l.get? i := by
  induction l generalizing i with
  | nil => simp
  | cons a as ih =>
    cases i with
    | zero => simp
    | succ n => simpa using ih n

/-! ### C1: trim-point selection order -/

/-- The property claimed of `trimToSafeStart` for a buffer over the ceiling:
the trim point is the first ESC at or after the cutoff, else just after the
first newline there, else just after the first carriage return there, else
exactly the cutoff; when an ESC exists at or after the cutoff the result
starts with an escape introducer. -/
def TrimSelectionSpec (buf : Str) : Prop :=
  (∀ i, firstAtFrom buf ESC (buf.length - BUFFER_LIMIT) i →
      trimToSafeStart buf = buf.drop i ∧ (trimToSafeStart buf).head? = some ESC) ∧
  (¬ occursFrom buf ESC (buf.length - BUFFER_LIMIT) →
    ∀ i, firstAtFrom buf '\n' (buf.length - BUFFER_LIMIT) i →
      trimToSafeStart buf = buf.drop (i + 1)) ∧
  (¬ occursFrom buf ESC (buf.length - BUFFER_LIMIT) →
    ¬ occursFrom buf '\n' (buf.length - BUFFER_LIMIT) →
    ∀ i, firstAtFrom buf '\r' (buf.length - BUFFER_LIMIT) i →
      trimToSafeStart buf = buf.drop (i + 1)) ∧
  (¬ occursFrom buf ESC (buf.length - BUFFER_LIMIT) →
    ¬ occursFrom buf '\n' (buf.length - BUFFER_LIMIT) →
    ¬ occursFrom buf '\r' (buf.length - BUFFER_LIMIT) →
    trimToSafeStart buf = buf.drop (buf.length - BUFFER_LIMIT))

/-- C1: for every buffer longer than the 64 KiB ceiling, `trimToSafeStart`
selects the new start in the order: first ESC at/after the cutoff, else just
after the first newline there, else just after the first carriage return
there, else exactly the cutoff; and when an ESC is present at/after the
cutoff the trimmed result's first byte is the escape introducer. -/
theorem trim_selects_safe_start (buf : Str) (hlen : BUFFER_LIMIT < buf.length) :
    TrimSelectionSpec buf := by
  have hif : ¬ buf.length ≤ BUFFER_LIMIT := by omega
  refine ⟨?_, ?_, ?_, ?_⟩
  · intro i hi
    have he := indexOfFrom_eq_some_of_firstAtFrom hi
    have ht : trimToSafeStart buf = buf.drop i := by
      unfold trimToSafeStart
      rw [if_neg hif, he]
    refine ⟨ht, ?_⟩
    rw [ht, head?_drop]
    exact hi.2.1
  · intro hne i hi
    have he := indexOfFrom_eq_none_of_not_occursFrom hne
    have hn := indexOfFrom_eq_some_of_firstAtFrom hi
    unfold trimToSafeStart
    rw [if_neg hif, he, hn]
  · intro hne hnn i hi
    have he := indexOfFrom_eq_none_of_not_occursFrom hne
    have hn := indexOfFrom_eq_none_of_not_occursFrom hnn
    have hr := indexOfFrom_eq_some_of_firstAtFrom hi
    unfold trimToSafeStart
    rw [if_neg hif, he, hn, hr]
  · intro hne hnn hnr
    have he := indexOfFrom_eq_none_of_not_occursFrom hne
    have hn := indexOfFrom_eq_none_of_not_occursFrom hnn
    have hr := indexOfFrom_eq_none_of_not_occursFrom hnr
    unfold trimToSafeStart
    rw [if_neg hif, he, hn, hr]

/-- Witness for C1 at a concrete buffer: 65537 copies of the escape byte. -/
theorem trim_selects_safe_start_witness :
    BUFFER_LIMIT < (List.replicate 65537 ESC).length ∧
      TrimSelectionSpec (List.replicate 65537 ESC) := by
  have hl : BUFFER_LIMIT < (List.replicate 65537 ESC).length := by
    rw [List.length_replicate]
    norm_num [BUFFER_LIMIT]
  exact ⟨hl, trim_selects_safe_start (List.replicate 65537 ESC) hl⟩

/-! ### C9: the buffer and the attach snapshot are bounded -/

/-- The snapshot sent to a newly attached socket (`attachWebSocket` in
cli-session-manager.ts computes `trimToSafeStart(session.buffer)`). -/
def attachSnapshot (buffer : Str) : Str :=
  trimToSafeStart buffer

theorem trimToSafeStart_length_le (buf : Str) :
    (trimToSafeStart buf).length ≤ BUFFER_LIMIT := by
  unfold trimToSafeStart
  by_cases hl : buf.length ≤ BUFFER_LIMIT
  · rw [if_pos hl]; exact hl
  · rw [if_neg hl]
    cases he : indexOfFrom buf ESC (buf.length - BUFFER_LIMIT) with
    | some i =>
      obtain ⟨h1, _, _⟩ := indexOfFrom_eq_some he
      simp only [he, List.length_drop]
      omega
    | none =>
      cases hn : indexOfFrom buf '\n' (buf.length - BUFFER_LIMIT) with
      | some i =>
        obtain ⟨h1, _, _⟩ := indexOfFrom_eq_some hn
        simp only [he, hn, List.length_drop]
        omega
      | none =>
        cases hr : indexOfFrom buf '\r' (buf.length - BUFFER_LIMIT) with
        | some i =>
          obtain ⟨h1, _, _⟩ := indexOfFrom_eq_some hr
          simp only [he, hn, hr, List.length_drop]
          omega
        | none =>
          simp only [he, hn, hr, List.length_drop]
          omega

/-- C9: `trimToSafeStart` is the identity below the ceiling, never returns
more than the ceiling, so each `appendBuffer` leaves at most 64 Ki characters
stored and the attach snapshot never exceeds 64 KiB. -/
theorem buffer_always_bounded (buf chunk : Str) :
    (buf.length ≤ BUFFER_LIMIT → trimToSafeStart buf = buf) ∧
    (trimToSafeStart buf).length ≤ BUFFER_LIMIT ∧
    (appendBuffer buf chunk).length ≤ BUFFER_LIMIT ∧
    (attachSnapshot buf).length ≤ BUFFER_LIMIT := by
  refine ⟨?_, trimToSafeStart_length_le buf, ?_, trimToSafeStart_length_le buf⟩
  · intro h
    unfold trimToSafeStart
    rw [if_pos h]
  · unfold appendBuffer
    by_cases hb : BUFFER_LIMIT < (buf ++ chunk).length
    · rw [if_pos hb]
      exact trimToSafeStart_length_le _
    · rw [if_neg hb]
      omega

/-- Witness for C9 at a concrete buffer and chunk. -/
theorem buffer_always_bounded_witness :
    (List.length ([] : Str) ≤ BUFFER_LIMIT → trimToSafeStart [] = []) ∧
    (trimToSafeStart ([] : Str)).length ≤ BUFFER_LIMIT ∧
    (appendBuffer [] ['a']).length ≤ BUFFER_LIMIT ∧
    (attachSnapshot ([] : Str)).length ≤ BUFFER_LIMIT :=
  buffer_always_bounded [] ['a']

/-! ## Token codec (ws-auth.ts)

`generateSessionToken` / `verifySessionToken` build and check
`base64url(JSON payload) ++ "." ++ base64url(HMAC-SHA256(secret, payload))`.
The byte-level primitives used by the source (Buffer base64url codec, UTF-8,
JSON string codec, HMAC-SHA256) are embedded concretely below. -/

/-- Byte sequences; every produced byte is `< 256`. -/
abbrev Bytes := List Nat

/-! ### base64url (no padding, as produced by Node `base64url`) -/

def b64Alphabet : Str :=
  "ABCDEFGHIJKLMNOPQRSTUVWXYZabcdefghijklmnopqrstuvwxyz0123456789-_".toList

def b64Char (n : Nat) : Char := b64Alphabet.getD (n % 64) 'A'

def b64Val (c : Char) : Option Nat := findIdx0 c b64Alphabet

def base64urlEncode : Bytes → Str
  | [] => []
  | [b0] => [b64Char (b0 / 4), b64Char (b0 % 4 * 16)]
  | [b0, b1] =>
      [b64Char (b0 / 4), b64Char (b0 % 4 * 16 + b1 / 16), b64Char (b1 % 16 * 4)]
  | b0 :: b1 :: b2 :: rest =>
      b64Char (b0 / 4) :: b64Char (b0 % 4 * 16 + b1 / 16) ::
        b64Char (b1 % 16 * 4 + b2 / 64) :: b64Char (b2 % 64) ::
        base64urlEncode rest

def base64urlDecode : Str → Option Bytes
  | [] => some []
  | [c0, c1] =>
      match b64Val c0, b64Val c1 with
      | some v0, some v1 => some [v0 * 4 + v1 / 16]
      | _, _ => none
  | [c0, c1, c2] =>
      match b64Val c0, b64Val c1, b64Val c2 with
      | some v0, some v1, some v2 =>
          some [v0 * 4 + v1 / 16, v1 % 16 * 16 + v2 / 4]
      | _, _, _ => none
  | c0 :: c1 :: c2 :: c3 :: rest =>
      match b64Val c0, b64Val c1, b64Val c2, b64Val c3, base64urlDecode rest with
      | some v0, some v1, some v2, some v3, some tail =>
          some ((v0 * 4 + v1 / 16) :: (v1 % 16 * 16 + v2 / 4) ::
            (v2 % 4 * 64 + v3) :: tail)
      | _, _, _, _, _ => none
  | [_] => none

def ValidBytes (bs : Bytes) : Prop := ∀ b ∈ bs, b < 256

theorem b64Val_b64Char (n : Nat) (h : n < 64) : b64Val (b64Char n) = some n := by
  revert n
  decide

theorem b64Char_ne_dot (n : Nat) : b64Char n ≠ '.' := by
  have h : n % 64 < 64 := Nat.mod_lt _ (by norm_num)
  have : ∀ k, k < 64 → b64Alphabet.getD k 'A' ≠ '.' := by decide
  exact this (n % 64) h

theorem base64urlEncode_no_dot (bs : Bytes) : ∀ c ∈ base64urlEncode bs, c ≠ '.' := by
  induction bs using base64urlEncode.induct with
  | case1 => simp [base64urlEncode]
  | case2 b0 =>
      simp only [base64urlEncode, List.mem_cons, List.not_mem_nil, or_false]
      rintro c (rfl | rfl) <;> exact b64Char_ne_dot _
  | case3 b0 b1 =>
      simp only [base64urlEncode, List.mem_cons, List.not_mem_nil, or_false]
      rintro c (rfl | rfl | rfl) <;> exact b64Char_ne_dot _
  | case4 b0 b1 b2 rest ih =>
      simp only [base64urlEncode, List.mem_cons]
      rintro c (rfl | rfl | rfl | rfl | hc)
      · exact b64Char_ne_dot _
      · exact b64Char_ne_dot _
      · exact b64Char_ne_dot _
      · exact b64Char_ne_dot _
      · exact ih c hc

theorem base64url_roundtrip (bs : Bytes) (hv : ValidBytes bs) :
    base64urlDecode (base64urlEncode bs) = some bs := by
  induction bs using base64urlEncode.induct with
  | case1 => simp [base64urlEncode, base64urlDecode]
  | case2 b0 =>
      have h0 : b0 < 256 := hv b0 (by simp)
      have e0 : b64Val (b64Char (b0 / 4)) = some (b0 / 4) :=
        b64Val_b64Char _ (by omega)
      have e1 : b64Val (b64Char (b0 % 4 * 16)) = some (b0 % 4 * 16) :=
        b64Val_b64Char _ (by omega)
      have ha : b0 / 4 * 4 + b0 % 4 * 16 / 16 = b0 := by omega
      simp only [base64urlEncode, base64urlDecode, e0, e1, ha]
  | case3 b0 b1 =>
      have h0 : b0 < 256 := hv b0 (by simp)
      have h1 : b1 < 256 := hv b1 (by simp)
      have e0 : b64Val (b64Char (b0 / 4)) = some (b0 / 4) :=
        b64Val_b64Char _ (by omega)
      have e1 : b64Val (b64Char (b0 % 4 * 16 + b1 / 16)) = some (b0 % 4 * 16 + b1 / 16) :=
        b64Val_b64Char _ (by omega)
      have e2 : b64Val (b64Char (b1 % 16 * 4)) = some (b1 % 16 * 4) :=
        b64Val_b64Char _ (by omega)
      have ha : b0 / 4 * 4 + (b0 % 4 * 16 + b1 / 16) / 16 = b0 := by omega
      have hb : (b0 % 4 * 16 + b1 / 16) % 16 * 16 + b1 % 16 * 4 / 4 = b1 := by omega
      simp only [base64urlEncode, base64urlDecode, e0, e1, e2, ha, hb]
  | case4 b0 b1 b2 rest ih =>
      have h0 : b0 < 256 := hv b0 (by simp)
      have h1 : b1 < 256 := hv b1 (by simp)
      have h2 : b2 < 256 := hv b2 (by simp)
      have hrest : ValidBytes rest := fun b hb => hv b (by simp [hb])
      have e0 : b64Val (b64Char (b0 / 4)) = some (b0 / 4) :=
        b64Val_b64Char _ (by omega)
      have e1 : b64Val (b64Char (b0 % 4 * 16 + b1 / 16)) = some (b0 % 4 * 16 + b1 / 16) :=
        b64Val_b64Char _ (by omega)
      have e2 : b64Val (b64Char (b1 % 16 * 4 + b2 / 64)) = some (b1 % 16 * 4 + b2 / 64) :=
        b64Val_b64Char _ (by omega)
      have e3 : b64Val (b64Char (b2 % 64)) = some (b2 % 64) :=
        b64Val_b64Char _ (by omega)
      have ha : b0 / 4 * 4 + (b0 % 4 * 16 + b1 / 16) / 16 = b0 := by omega
      have hb : (b0 % 4 * 16 + b1 / 16) % 16 * 16 + (b1 % 16 * 4 + b2 / 64) / 4 = b1 := by
        omega
      have hc : (b1 % 16 * 4 + b2 / 64) % 4 * 64 + b2 % 64 = b2 := by omega
      simp only [base64urlEncode, base64urlDecode, e0, e1, e2, e3, ih hrest, ha, hb, hc]

theorem base64urlEncode_ne_nil (bs : Bytes) (h : bs ≠ []) :
    base64urlEncode bs ≠ [] := by
  match bs with
  | [] => exact absurd rfl h
  | [b0] => simp [base64urlEncode]
  | [b0, b1] => simp [base64urlEncode]
  | b0 :: b1 :: b2 :: rest => simp [base64urlEncode]

/-! ### UTF-8 (Buffer.from(str) / buf.toString("utf8")) -/

def utf8EncodeChar (c : Char) : Bytes :=
  let n := c.toNat
  if n < 128 then [n]
  else if n < 2048 then [192 + n / 64, 128 + n % 64]
  else if n < 65536 then [224 + n / 4096, 128 + n / 64 % 64, 128 + n % 64]
  else [240 + n / 262144, 128 + n / 4096 % 64, 128 + n / 64 % 64, 128 + n % 64]

def utf8Encode : Str → Bytes
  | [] => []
  | c :: cs => utf8EncodeChar c ++ utf8Encode cs

/-- Decode one UTF-8 scalar from the front of the byte stream, returning the
remaining bytes; ill-formed inputs are rejected with `none`, modelling the
fact that in the source a garbled payload fails JSON parsing and yields the
null sentinel. -/
def utf8DecodeChar (bytes : Bytes) : Option (Char × Bytes) :=
  match bytes with
  | [] => none
  | b :: bs =>
    if b < 128 then some (Char.ofNat b, bs)
    else if b < 224 then
      match bs with
      | b1 :: bs1 => some (Char.ofNat ((b - 192) * 64 + (b1 - 128)), bs1)
      | [] => none
    else if b < 240 then
      match bs with
      | b1 :: b2 :: bs1 =>
          some (Char.ofNat ((b - 224) * 4096 + (b1 - 128) * 64 + (b2 - 128)), bs1)
      | _ => none
    else
      match bs with
      | b1 :: b2 :: b3 :: bs1 =>
          some (Char.ofNat ((b - 240) * 262144 + (b1 - 128) * 4096 +
            (b2 - 128) * 64 + (b3 - 128)), bs1)
      | _ => none

theorem utf8DecodeChar_shrinks :
    ∀ {bs : Bytes} {c : Char} {rest : Bytes},
      utf8DecodeChar bs = some (c, rest) → rest.length < bs.length := by
  intro bs c rest h
  match bs with
  | [] => simp [utf8DecodeChar] at h
  | b :: bs =>
    simp only [utf8DecodeChar] at h
    by_cases h1 : b < 128
    · rw [if_pos h1] at h
      simp only [Option.some.injEq, Prod.mk.injEq] at h
      rw [← h.2]
      simp
    · rw [if_neg h1] at h
      by_cases h2 : b < 224
      · rw [if_pos h2] at h
        match bs with
        | [] => simp at h
        | b1 :: bs1 =>
          simp only [Option.some.injEq, Prod.mk.injEq] at h
          rw [← h.2]
          simp
          omega
      · rw [if_neg h2] at h
        by_cases h3 : b < 240
        · rw [if_pos h3] at h
          match bs with
          | [] => simp at h
          | [b1] => simp at h
          | b1 :: b2 :: bs1 =>
            simp only [Option.some.injEq, Prod.mk.injEq] at h
            rw [← h.2]
            simp
            omega
        · rw [if_neg h3] at h
          match bs with
          | [] => simp at h
          | [b1] => simp at h
          | [b1, b2] => simp at h
          | b1 :: b2 :: b3 :: bs1 =>
            simp only [Option.some.injEq, Prod.mk.injEq] at h
            rw [← h.2]
            simp
            omega

/-- Decode a UTF-8 byte stream (scalar by scalar via `utf8DecodeChar`). -/
def utf8Decode (bytes : Bytes) : Option Str :=
  match h : utf8DecodeChar bytes with
  | none => if bytes = [] then some [] else none
  | some (c, rest) =>
    match utf8Decode rest with
    | some cs => some (c :: cs)
    | none => none
termination_by bytes.length
decreasing_by exact utf8DecodeChar_shrinks h

theorem char_toNat_lt (c : Char) : c.toNat < 1114112 := by
  have h := c.valid
  unfold Char.toNat
  rcases h with h | h <;> omega

theorem utf8EncodeChar_valid (c : Char) : ∀ b ∈ utf8EncodeChar c, b < 256 := by
  have hc := char_toNat_lt c
  unfold utf8EncodeChar
  by_cases h1 : c.toNat < 128
  · simp only [h1, if_true]
    intro b hb
    simp at hb
    omega
  · by_cases h2 : c.toNat < 2048
    · simp only [h1, h2, if_false, if_true]
      intro b hb
      simp at hb
      rcases hb with rfl | rfl <;> omega
    · by_cases h3 : c.toNat < 65536
      · simp only [h1, h2, h3, if_false, if_true]
        intro b hb
        simp at hb
        rcases hb with rfl | rfl | rfl <;> omega
      · simp only [h1, h2, h3, if_false]
        intro b hb
        simp at hb
        rcases hb with rfl | rfl | rfl | rfl <;> omega

theorem utf8Encode_valid (s : Str) : ValidBytes (utf8Encode s) := by
  induction s with
  | nil => intro b hb; simp [utf8Encode] at hb
  | cons c cs ih =>
      intro b hb
      simp only [utf8Encode, List.mem_append] at hb
      rcases hb with hb | hb
      · exact utf8EncodeChar_valid c b hb
      · exact ih b hb

theorem utf8DecodeChar_encodeChar (c : Char) (rest : Bytes) :
    utf8DecodeChar (utf8EncodeChar c ++ rest) = some (c, rest) := by
  have hc := char_toNat_lt c
  have hval : Char.ofNat c.toNat = c := Char.ofNat_toNat c
  unfold utf8EncodeChar
  by_cases h1 : c.toNat < 128
  · simp only [h1, if_true, List.cons_append, List.nil_append]
    simp only [utf8DecodeChar]
    rw [if_pos h1, hval]
  · by_cases h2 : c.toNat < 2048
    · simp only [h1, h2, if_false, if_true, List.cons_append, List.nil_append]
      simp only [utf8DecodeChar]
      rw [if_neg (by omega), if_pos (by omega)]
      have he : (192 + c.toNat / 64 - 192) * 64 + (128 + c.toNat % 64 - 128) = c.toNat := by
        omega
      simp only [he, hval]
    · by_cases h3 : c.toNat < 65536
      · simp only [h1, h2, h3, if_false, if_true, List.cons_append, List.nil_append]
        simp only [utf8DecodeChar]
        rw [if_neg (by omega), if_neg (by omega), if_pos (by omega)]
        have he : (224 + c.toNat / 4096 - 224) * 4096 +
            (128 + c.toNat / 64 % 64 - 128) * 64 + (128 + c.toNat % 64 - 128) = c.toNat := by
          omega
        simp only [he, hval]
      · simp only [h1, h2, h3, if_false, List.cons_append, List.nil_append]
        simp only [utf8DecodeChar]
        rw [if_neg (by omega), if_neg (by omega), if_neg (by omega)]
        have he : (240 + c.toNat / 262144 - 240) * 262144 +
            (128 + c.toNat / 4096 % 64 - 128) * 4096 +
            (128 + c.toNat / 64 % 64 - 128) * 64 + (128 + c.toNat % 64 - 128) = c.toNat := by
          omega
        simp only [he, hval]

theorem utf8Decode_nil : utf8Decode [] = some [] := by
  rw [utf8Decode]
  split
  · simp
  · rename_i c rest heq
    simp [utf8DecodeChar] at heq

theorem utf8Decode_step (bytes : Bytes) (c : Char) (rest : Bytes)
    (h : utf8DecodeChar bytes = some (c, rest)) :
    utf8Decode bytes =
      match utf8Decode rest with
      | some cs => some (c :: cs)
      | none => none := by
  rw [utf8Decode]
  split
  · rename_i heq
    rw [h] at heq
    cases heq
  · rename_i c1 rest1 heq
    rw [h] at heq
    injection heq with heq1
    injection heq1 with hc hr
    subst hc
    subst hr
    rfl

theorem utf8Decode_encodeChar (c : Char) (rest : Bytes) :
    utf8Decode (utf8EncodeChar c ++ rest) =
      match utf8Decode rest with
      | some cs => some (c :: cs)
      | none => none :=
  utf8Decode_step _ c rest (utf8DecodeChar_encodeChar c rest)

theorem utf8_roundtrip (s : Str) : utf8Decode (utf8Encode s) = some s := by
  induction s with
  | nil =>
      rw [show utf8Encode [] = [] from rfl]
      exact utf8Decode_nil
  | cons c cs ih =>
      show utf8Decode (utf8EncodeChar c ++ utf8Encode cs) = _
      rw [utf8Decode_encodeChar, ih]

/-! ### JSON payload codec (`JSON.stringify({sessionId, exp})` / `JSON.parse`)

Only the payload shape the token codec produces is modelled; `parsePayload`
accepts exactly the canonical serialisations (real `JSON.parse` is more
lenient about whitespace and key order, which the codec never produces). -/

def hexDigit (n : Nat) : Char :=
  match n % 16 with
  | 0 => '0' | 1 => '1' | 2 => '2' | 3 => '3' | 4 => '4' | 5 => '5' | 6 => '6'
  | 7 => '7' | 8 => '8' | 9 => '9' | 10 => 'a' | 11 => 'b' | 12 => 'c'
  | 13 => 'd' | 14 => 'e' | _ => 'f'

def hexVal (c : Char) : Option Nat :=
  if 48 ≤ c.toNat ∧ c.toNat ≤ 57 then some (c.toNat - 48)
  else if 97 ≤ c.toNat ∧ c.toNat ≤ 102 then some (c.toNat - 87)
  else if 65 ≤ c.toNat ∧ c.toNat ≤ 70 then some (c.toNat - 55)
  else none

theorem hexVal_hexDigit (n : Nat) : hexVal (hexDigit n) = some (n % 16) := by
  have h : n % 16 < 16 := Nat.mod_lt _ (by norm_num)
  unfold hexDigit
  interval_cases h : n % 16 <;> simp_all <;> rfl

/-- One character of `JSON.stringify` string escaping. -/
def jsonEscapeChar (c : Char) : Str :=
  if c = '"' then ['\\', '"']
  else if c = '\\' then ['\\', '\\']
  else if c = Char.ofNat 8 then ['\\', 'b']
  else if c = Char.ofNat 12 then ['\\', 'f']
  else if c = '\n' then ['\\', 'n']
  else if c = '\r' then ['\\', 'r']
  else if c = '\t' then ['\\', 't']
  else if c.toNat < 32 then
    ['\\', 'u', '0', '0', hexDigit (c.toNat / 16), hexDigit (c.toNat % 16)]
  else [c]

def jsonEscape : Str → Str
  | [] => []
  | c :: cs => jsonEscapeChar c ++ jsonEscape cs

/-- Scan a JSON string body up to and including the closing quote, returning
the decoded content and the remaining input. -/
def jsonScanString : Str → Option (Str × Str)
  | [] => none
  | c :: rest =>
    if c = '"' then some ([], rest)
    else if c = '\\' then
      match rest with
      | [] => none
      | e :: rest1 =>
        if e = '"' then (jsonScanString rest1).map (fun p => ('"' :: p.1, p.2))
        else if e = '\\' then (jsonScanString rest1).map (fun p => ('\\' :: p.1, p.2))
        else if e = '/' then (jsonScanString rest1).map (fun p => ('/' :: p.1, p.2))
        else if e = 'b' then (jsonScanString rest1).map (fun p => (Char.ofNat 8 :: p.1, p.2))
        else if e = 'f' then (jsonScanString rest1).map (fun p => (Char.ofNat 12 :: p.1, p.2))
        else if e = 'n' then (jsonScanString rest1).map (fun p => ('\n' :: p.1, p.2))
        else if e = 'r' then (jsonScanString rest1).map (fun p => ('\r' :: p.1, p.2))
        else if e = 't' then (jsonScanString rest1).map (fun p => ('\t' :: p.1, p.2))
        else if e = 'u' then
          match rest1 with
          | h1 :: h2 :: h3 :: h4 :: rest2 =>
            match hexVal h1, hexVal h2, hexVal h3, hexVal h4 with
            | some v1, some v2, some v3, some v4 =>
                (jsonScanString rest2).map
                  (fun p => (Char.ofNat (v1 * 4096 + v2 * 256 + v3 * 16 + v4) :: p.1, p.2))
            | _, _, _, _ => none
          | _ => none
        else none
    else (jsonScanString rest).map (fun p => (c :: p.1, p.2))
termination_by s => s.length
decreasing_by all_goals simp_wf <;> omega

theorem jsonScan_escape (s : Str) (rest : Str) :
    jsonScanString (jsonEscape s ++ '"' :: rest) = some (s, rest) := by
  induction s with
  | nil =>
    show jsonScanString ('"' :: rest) = some ([], rest)
    rw [jsonScanString.eq_def]
    simp
  | cons c cs ih =>
    show jsonScanString (jsonEscapeChar c ++ jsonEscape cs ++ '"' :: rest) = _
    unfold jsonEscapeChar
    by_cases hq : c = '"'
    · subst hq
      simp only [if_pos rfl, List.cons_append, List.nil_append]
      rw [jsonScanString.eq_def]
      simp [ih]
    · rw [if_neg hq]
      by_cases hbs : c = '\\'
      · subst hbs
        simp only [if_pos rfl, List.cons_append, List.nil_append]
        rw [jsonScanString.eq_def]
        simp [ih]
      · rw [if_neg hbs]
        by_cases hb8 : c = Char.ofNat 8
        · subst hb8
          simp only [if_pos rfl, List.cons_append, List.nil_append]
          rw [jsonScanString.eq_def]
          simp [ih]
        · rw [if_neg hb8]
          by_cases hf12 : c = Char.ofNat 12
          · subst hf12
            simp only [if_pos rfl, List.cons_append, List.nil_append]
            rw [jsonScanString.eq_def]
            simp [ih]
          · rw [if_neg hf12]
            by_cases hn : c = '\n'
            · subst hn
              simp only [if_pos rfl, List.cons_append, List.nil_append]
              rw [jsonScanString.eq_def]
              simp [ih]
            · rw [if_neg hn]
              by_cases hr : c = '\r'
              · subst hr
                simp only [if_pos rfl, List.cons_append, List.nil_append]
                rw [jsonScanString.eq_def]
                simp [ih]
              · rw [if_neg hr]
                by_cases ht : c = '\t'
                · subst ht
                  simp only [if_pos rfl, List.cons_append, List.nil_append]
                  rw [jsonScanString.eq_def]
                  simp [ih]
                · rw [if_neg ht]
                  by_cases hctl : c.toNat < 32
                  · rw [if_pos hctl]
                    simp only [List.cons_append, List.nil_append]
                    have hhi : hexVal (hexDigit (c.toNat / 16)) = some (c.toNat / 16) := by
                      rw [hexVal_hexDigit]
                      congr 1
                      omega
                    have hlo : hexVal (hexDigit (c.toNat % 16)) = some (c.toNat % 16) := by
                      rw [hexVal_hexDigit]
                      congr 1
                      omega
                    have hv : Char.ofNat (c.toNat / 16 * 16 + c.toNat % 16) = c := by
                      have h16 : c.toNat / 16 * 16 + c.toNat % 16 = c.toNat := by
                        omega
                      rw [h16]
                      exact Char.ofNat_toNat c
                    have h0 : hexVal '0' = some 0 := by decide
                    rw [jsonScanString.eq_def]
                    simp [h0, hhi, hlo, hv, ih]
                  · rw [if_neg hctl]
                    simp only [List.cons_append, List.nil_append]
                    rw [jsonScanString.eq_def]
                    simp [hq, hbs, ih]

/-! ### Decimal serialisation of the expiry (`JSON.stringify` of a Number) -/

def digitVal (c : Char) : Option Nat :=
  if 48 ≤ c.toNat ∧ c.toNat ≤ 57 then some (c.toNat - 48) else none

def natToDigits (n : Nat) : Str :=
  if n < 10 then [hexDigit n]
  else natToDigits (n / 10) ++ [hexDigit (n % 10)]
termination_by n
decreasing_by simp_wf; omega

def scanDigits : Str → Nat → Nat × Str
  | [], acc => (acc, [])
  | c :: rest, acc =>
    match digitVal c with
    | some d => scanDigits rest (acc * 10 + d)
    | none => (acc, c :: rest)

theorem digitVal_hexDigit (d : Nat) (h : d < 10) : digitVal (hexDigit d) = some d := by
  interval_cases d <;> decide

theorem scanDigits_stop (s : Str) (acc : Nat)
    (h : ∀ c cs, s = c :: cs → digitVal c = none) :
    scanDigits s acc = (acc, s) := by
  cases s with
  | nil => rfl
  | cons c cs =>
    rw [scanDigits, h c cs rfl]

theorem scanDigits_natToDigits (n : Nat) :
    ∀ (rest : Str) (acc : Nat),
      scanDigits (natToDigits n ++ rest) acc =
        scanDigits rest (acc * 10 ^ (natToDigits n).length + n) := by
  induction n using natToDigits.induct with
  | case1 n hlt =>
    intro rest acc
    rw [natToDigits, if_pos hlt]
    show scanDigits (hexDigit n :: rest) acc = _
    rw [scanDigits, digitVal_hexDigit n hlt]
    simp [pow_succ]
  | case2 n hlt ih =>
    intro rest acc
    rw [natToDigits, if_neg hlt]
    rw [List.append_assoc, List.cons_append, List.nil_append, ih]
    show scanDigits (hexDigit (n % 10) :: rest) _ = _
    simp only [scanDigits, digitVal_hexDigit (n % 10) (by omega : n % 10 < 10)]
    congr 1
    have hlen : (natToDigits (n / 10) ++ [hexDigit (n % 10)]).length
        = (natToDigits (n / 10)).length + 1 := by simp
    rw [hlen, pow_succ]
    have hn : n / 10 * 10 + n % 10 = n := by omega
    calc (acc * 10 ^ (natToDigits (n / 10)).length + n / 10) * 10 + n % 10
        = acc * (10 ^ (natToDigits (n / 10)).length * 10) + (n / 10 * 10 + n % 10) := by
          ring
      _ = acc * (10 ^ (natToDigits (n / 10)).length * 10) + n := by rw [hn]

theorem natToDigits_head_digit (n : Nat) :
    ∃ c cs, natToDigits n = c :: cs ∧ (digitVal c).isSome := by
  induction n using natToDigits.induct with
  | case1 n hlt =>
    refine ⟨hexDigit n, [], ?_, ?_⟩
    · rw [natToDigits, if_pos hlt]
    · rw [digitVal_hexDigit n hlt]; rfl
  | case2 n hlt ih =>
    obtain ⟨c, cs, hc, hd⟩ := ih
    refine ⟨c, cs ++ [hexDigit (n % 10)], ?_, hd⟩
    rw [natToDigits, if_neg hlt, hc]
    rfl

/-! ### The token payload (`{"sessionId":...,"exp":...}`) -/

structure SessionToken where
  sessionId : Str
  exp : Nat
deriving DecidableEq

def payloadOpen : Str := "\x7b\"sessionId\":\"".toList

def payloadSep : Str := ",\"exp\":".toList

def payloadClose : Str := "\x7d".toList

/-- `JSON.stringify({sessionId, exp})` for the payload record. -/
def payloadString (t : SessionToken) : Str :=
  payloadOpen ++ jsonEscape t.sessionId ++ '"' :: payloadSep ++
    natToDigits t.exp ++ payloadClose

/-- Strip an exact literal from the front of the input. -/
def dropExact : Str → Str → Option Str
  | [], s => some s
  | _ :: _, [] => none
  | p :: ps, c :: cs => if c = p then dropExact ps cs else none

theorem dropExact_append (pre rest : Str) : dropExact pre (pre ++ rest) = some rest := by
  induction pre with
  | nil => rfl
  | cons p ps ih =>
    show dropExact (p :: ps) (p :: (ps ++ rest)) = some rest
    rw [dropExact, if_pos rfl, ih]

/-- `JSON.parse` restricted to the canonical payload serialisation. -/
def parsePayload (s : Str) : Option SessionToken :=
  match dropExact payloadOpen s with
  | none => none
  | some s1 =>
    match jsonScanString s1 with
    | none => none
    | some (sid, s2) =>
      match dropExact payloadSep s2 with
      | none => none
      | some s3 =>
        match s3 with
        | [] => none
        | c :: _ =>
          match digitVal c with
          | none => none
          | some _ =>
            match scanDigits s3 0 with
            | (n, s4) =>
              match dropExact payloadClose s4 with
              | none => none
              | some s5 => if s5 = [] then some ⟨sid, n⟩ else none

theorem dropExact_self (pre : Str) : dropExact pre pre = some [] := by
  have h := dropExact_append pre []
  simpa using h

theorem parsePayload_roundtrip (t : SessionToken) :
    parsePayload (payloadString t) = some t := by
  have hshape : payloadString t
      = payloadOpen ++ (jsonEscape t.sessionId ++ '"' ::
          (payloadSep ++ (natToDigits t.exp ++ payloadClose))) := by
    unfold payloadString
    simp
  rw [hshape]
  obtain ⟨c, cs, hc, hd⟩ := natToDigits_head_digit t.exp
  obtain ⟨dv, hdv⟩ := Option.isSome_iff_exists.mp hd
  have hsplit : natToDigits t.exp ++ payloadClose = c :: (cs ++ payloadClose) := by
    rw [hc]
    rfl
  simp only [parsePayload, dropExact_append, jsonScan_escape, hsplit, hdv]
  rw [← hsplit, scanDigits_natToDigits t.exp payloadClose 0]
  rw [scanDigits_stop payloadClose (0 * 10 ^ (natToDigits t.exp).length + t.exp)
    (by intro x xs hx; cases hx; rfl)]
  simp only [dropExact_self]
  simp

theorem utf8Encode_ne_nil (c : Char) (cs : Str) : utf8Encode (c :: cs) ≠ [] := by
  show utf8EncodeChar c ++ utf8Encode cs ≠ []
  have : utf8EncodeChar c ≠ [] := by
    unfold utf8EncodeChar
    by_cases h1 : c.toNat < 128
    · simp [h1]
    · by_cases h2 : c.toNat < 2048
      · simp [h1, h2]
      · by_cases h3 : c.toNat < 65536
        · simp [h1, h2, h3]
        · simp [h1, h2, h3]
  intro h
  rcases List.append_eq_nil.mp h with ⟨h4, _⟩
  exact this h4

/-! ### HMAC-SHA256 (node:crypto `createHmac("sha256", secret)`) -/

/-- Truncate to a 32-bit word. -/
def w32 (n : Nat) : Nat := n % 4294967296

/-- Rotate a 32-bit word right by `n` bits. -/
def rotr (x n : Nat) : Nat := w32 (x / 2 ^ n + x % 2 ^ n * 2 ^ (32 - n))

def shaCh (x y z : Nat) : Nat := (x &&& y) ^^^ ((4294967295 - w32 x) &&& z)

def shaMaj (x y z : Nat) : Nat := (x &&& y) ^^^ (x &&& z) ^^^ (y &&& z)

def bsig0 (x : Nat) : Nat := rotr x 2 ^^^ rotr x 13 ^^^ rotr x 22

def bsig1 (x : Nat) : Nat := rotr x 6 ^^^ rotr x 11 ^^^ rotr x 25

def ssig0 (x : Nat) : Nat := rotr x 7 ^^^ rotr x 18 ^^^ x / 2 ^ 3

def ssig1 (x : Nat) : Nat := rotr x 17 ^^^ rotr x 19 ^^^ x / 2 ^ 10

def shaK : List Nat :=
  [1116352408, 1899447441, 3049323471, 3921009573, 961987163, 1508970993,
   2453635748, 2870763221, 3624381080, 310598401, 607225278, 1426881987,
   1925078388, 2162078206, 2614888103, 3248222580, 3835390401, 4022224774,
   264347078, 604807628, 770255983, 1249150122, 1555081692, 1996064986,
   2554220882, 2821834349, 2952996808, 3210313671, 3336571891, 3584528711,
   113926993, 338241895, 666307205, 773529912, 1294757372, 1396182291,
   1695183700, 1986661051, 2177026350, 2456956037, 2730485921, 2820302411,
   3259730800, 3345764771, 3516065817, 3600352804, 4094571909, 275423344,
   430227734, 506948616, 659060556, 883997877, 958139571, 1322822218,
   1537002063, 1747873779, 1955562222, 2024104815, 2227730452, 2361852424,
   2428436474, 2756734187, 3204031479, 3329325298]

def shaH0 : List Nat :=
  [1779033703, 3144134277, 1013904242, 2773480762,
   1359893119, 2600822924, 528734635, 1541459225]

/-- SHA-256 padding: a 0x80 byte, zeros to 56 mod 64, then the bit length as
eight big-endian bytes. -/
def shaPad (msg : Bytes) : Bytes :=
  let L := msg.length
  let k := (119 - L % 64) % 64
  let bits := 8 * L
  msg ++ [128] ++ List.replicate k 0 ++
    [bits / 2 ^ 56 % 256, bits / 2 ^ 48 % 256, bits / 2 ^ 40 % 256,
     bits / 2 ^ 32 % 256, bits / 2 ^ 24 % 256, bits / 2 ^ 16 % 256,
     bits / 2 ^ 8 % 256, bits % 256]

def bytesToWords : Bytes → List Nat
  | b0 :: b1 :: b2 :: b3 :: rest =>
      (b0 * 16777216 + b1 * 65536 + b2 * 256 + b3) :: bytesToWords rest
  | _ => []

def wordsToBytes : List Nat → Bytes
  | [] => []
  | w :: ws =>
      w / 16777216 % 256 :: w / 65536 % 256 :: w / 256 % 256 :: w % 256 ::
        wordsToBytes ws

def chunksOf16 : List Nat → List (List Nat)
  | [] => []
  | w :: ws => (w :: ws.take 15) :: chunksOf16 (ws.drop 15)
termination_by ws => ws.length
decreasing_by simp_wf; omega

/-- Extend a 16-word block by `n` further schedule words. -/
def shaExtend : List Nat → Nat → List Nat
  | ws, 0 => ws
  | ws, n + 1 =>
      let t := ws.length
      let w := w32 (ssig1 (ws.getD (t - 2) 0) + ws.getD (t - 7) 0 +
        ssig0 (ws.getD (t - 15) 0) + ws.getD (t - 16) 0)
      shaExtend (ws ++ [w]) n

/-- One round of the SHA-256 compression function. -/
def shaRound (st : List Nat) (k w : Nat) : List Nat :=
  match st with
  | [a, b, c, d, e, f, g, h] =>
      let t1 := w32 (h + bsig1 e + shaCh e f g + k + w)
      let t2 := w32 (bsig0 a + shaMaj a b c)
      [w32 (t1 + t2), a, b, c, w32 (d + t1), e, f, g]
  | other => other

def shaCompressBlock (h : List Nat) (block : List Nat) : List Nat :=
  let ws := shaExtend block 48
  let st := (List.zip shaK ws).foldl (fun st kw => shaRound st kw.1 kw.2) h
  List.zipWith (fun x y => w32 (x + y)) h st

def sha256 (msg : Bytes) : Bytes :=
  wordsToBytes ((chunksOf16 (bytesToWords (shaPad msg))).foldl shaCompressBlock shaH0)

/-- HMAC-SHA256 with byte-level key and message. -/
def hmacSha256 (key msg : Bytes) : Bytes :=
  let k0 := if 64 < key.length then sha256 key ++ List.replicate 32 0
            else key ++ List.replicate (64 - key.length) 0
  let ipad := k0.map (fun b => b ^^^ 54)
  let opad := k0.map (fun b => b ^^^ 92)
  sha256 (opad ++ sha256 (ipad ++ msg))

theorem shaRound_length (st : List Nat) (k w : Nat) (h : st.length = 8) :
    (shaRound st k w).length = 8 := by
  match st, h with
  | [a, b, c, d, e, f, g, h8], _ => rfl

theorem foldl_shaRound_length (l : List (Nat × Nat)) (st : List Nat) (h : st.length = 8) :
    (l.foldl (fun st kw => shaRound st kw.1 kw.2) st).length = 8 := by
  induction l generalizing st with
  | nil => exact h
  | cons kw l ih => exact ih _ (shaRound_length _ _ _ h)

theorem shaCompressBlock_length (h : List Nat) (block : List Nat) (hl : h.length = 8) :
    (shaCompressBlock h block).length = 8 := by
  unfold shaCompressBlock
  rw [List.length_zipWith, foldl_shaRound_length _ _ hl, hl]
  rfl

theorem foldl_shaCompressBlock_length (blocks : List (List Nat)) (h : List Nat)
    (hl : h.length = 8) : (blocks.foldl shaCompressBlock h).length = 8 := by
  induction blocks generalizing h with
  | nil => exact hl
  | cons b bs ih => exact ih _ (shaCompressBlock_length _ _ hl)

theorem wordsToBytes_length (ws : List Nat) : (wordsToBytes ws).length = 4 * ws.length := by
  induction ws with
  | nil => rfl
  | cons w ws ih =>
      show (_ :: _ :: _ :: _ :: wordsToBytes ws).length = _
      simp [ih]
      omega

theorem sha256_length (msg : Bytes) : (sha256 msg).length = 32 := by
  unfold sha256
  rw [wordsToBytes_length, foldl_shaCompressBlock_length _ _ (by rfl)]

theorem sha256_ne_nil (msg : Bytes) : sha256 msg ≠ [] := by
  intro h
  have := sha256_length msg
  rw [h] at this
  simp at this

/-! ### generateSessionToken / verifySessionToken (ws-auth.ts)

`WS_SECRET` (environment value or random bytes fixed at startup) is an
explicit parameter, and `Date.now()` is an explicit `now` argument. -/

/-- JS `token.split(".")`. -/
def splitDots : Str → List Str
  | [] => [[]]
  | c :: rest =>
    if c = '.' then [] :: splitDots rest
    else
      match splitDots rest with
      | p :: ps => (c :: p) :: ps
      | [] => [[c]]

/-- `createHmac("sha256", WS_SECRET).update(payloadB64).digest("base64url")`. -/
def hmacB64 (secret : Bytes) (payloadB64 : Str) : Str :=
  base64urlEncode (hmacSha256 secret (utf8Encode payloadB64))

/-- `generateSessionToken` from ws-auth.ts: sign a payload carrying the
session id and a one-hour expiry. -/
def generateSessionToken (secret : Bytes) (sessionId : Str) (now : Nat) : Str :=
  -- the source binds `exp`, `payloadStr` and `payloadB64` with consts; they
  -- are inlined here
  base64urlEncode (utf8Encode (payloadString ⟨sessionId, now + 60 * 60 * 1000⟩)) ++
    '.' :: hmacB64 secret
      (base64urlEncode (utf8Encode (payloadString ⟨sessionId, now + 60 * 60 * 1000⟩)))

/-- `verifySessionToken` from ws-auth.ts: split payload from signature,
recompute and compare the signature, decode the payload, reject expired
tokens; every failure yields the `none` sentinel (the source catches all
exceptions and returns null). -/
def verifySessionToken (secret : Bytes) (token : Str) (now : Nat) : Option SessionToken :=
  match splitDots token with
  | payloadB64 :: signature :: _ =>
    if payloadB64 = [] ∨ signature = [] then none
    else if signature ≠ hmacB64 secret payloadB64 then none
    else
      match base64urlDecode payloadB64 with
      | none => none
      | some bytes =>
        match utf8Decode bytes with
        | none => none
        | some payloadStr =>
          match parsePayload payloadStr with
          | none => none
          | some payload => if payload.exp < now then none else some payload
  | _ => none

theorem splitDots_no_dot (s : Str) (h : ∀ c ∈ s, c ≠ '.') : splitDots s = [s] := by
  induction s with
  | nil => rfl
  | cons c rest ih =>
    rw [splitDots]
    rw [if_neg (h c (by simp))]
    rw [ih (fun x hx => h x (by simp [hx]))]

theorem splitDots_append (a b : Str) (ha : ∀ c ∈ a, c ≠ '.') (hb : ∀ c ∈ b, c ≠ '.') :
    splitDots (a ++ '.' :: b) = [a, b] := by
  induction a with
  | nil =>
    show splitDots ('.' :: b) = [[], b]
    rw [splitDots, if_pos rfl, splitDots_no_dot b hb]
  | cons c rest ih =>
    show splitDots (c :: (rest ++ '.' :: b)) = [c :: rest, b]
    rw [splitDots, if_neg (ha c (by simp)), ih (fun x hx => ha x (by simp [hx]))]

theorem hmacB64_no_dot (secret : Bytes) (p : Str) : ∀ c ∈ hmacB64 secret p, c ≠ '.' :=
  base64urlEncode_no_dot _

theorem verify_eq_of_split (secret : Bytes) (token : Str) (now : Nat)
    (p sig : Str) (rest : List Str) (h : splitDots token = p :: sig :: rest) :
    verifySessionToken secret token now =
      (if p = [] ∨ sig = [] then none
       else if sig ≠ hmacB64 secret p then none
       else
         match base64urlDecode p with
         | none => none
         | some bytes =>
           match utf8Decode bytes with
           | none => none
           | some payloadStr =>
             match parsePayload payloadStr with
             | none => none
             | some payload => if payload.exp < now then none else some payload) := by
  unfold verifySessionToken
  rw [h]

theorem verify_eq_none_of_short (secret : Bytes) (token : Str) (now : Nat)
    (h : ∀ p sig rest, splitDots token ≠ p :: sig :: rest) :
    verifySessionToken secret token now = none := by
  unfold verifySessionToken
  cases hs : splitDots token with
  | nil => rfl
  | cons p ps =>
    cases ps with
    | nil => rfl
    | cons sig rest => exact absurd hs (h p sig rest)

/-- The full behaviour claimed of the token codec: (1) a freshly issued token
verifies to its session id and expiry exactly when the expiry has not passed;
(2) any accepted token decomposes into a payload whose recomputed HMAC equals
the presented signature, parses to the returned record, and is unexpired;
(3) any token whose signature differs from the recomputed HMAC of its payload
is rejected with the `none` sentinel. Verification is a total function, so it
never throws. -/
def TokenCodecSpec (secret : Bytes) (sid : Str) (tIssue tCheck : Nat) : Prop :=
  (verifySessionToken secret (generateSessionToken secret sid tIssue) tCheck
      = if tIssue + 60 * 60 * 1000 < tCheck then none
        else some ⟨sid, tIssue + 60 * 60 * 1000⟩) ∧
  (∀ token now st, verifySessionToken secret token now = some st →
      ∃ p sig rest, splitDots token = p :: sig :: rest ∧ p ≠ [] ∧
        sig = hmacB64 secret p ∧
        (∃ bytes payloadStr, base64urlDecode p = some bytes ∧
          utf8Decode bytes = some payloadStr ∧ parsePayload payloadStr = some st) ∧
        ¬ st.exp < now) ∧
  (∀ token now,
      (∀ p sig rest, splitDots token = p :: sig :: rest → sig ≠ hmacB64 secret p) →
      verifySessionToken secret token now = none)

/-- C2: token verification accepts exactly well-formed, correctly signed,
unexpired tokens and returns the `none` sentinel on every failure mode. -/
theorem token_codec_correct (secret : Bytes) (sid : Str) (tIssue tCheck : Nat) :
    TokenCodecSpec secret sid tIssue tCheck := by
  refine ⟨?_, ?_, ?_⟩
  · -- roundtrip of a freshly issued token
    have hps : payloadString ⟨sid, tIssue + 60 * 60 * 1000⟩ ≠ [] := by
      unfold payloadString payloadOpen
      simp
    have hpb : base64urlEncode (utf8Encode (payloadString ⟨sid, tIssue + 60 * 60 * 1000⟩)) ≠ [] := by
      cases hcase : payloadString ⟨sid, tIssue + 60 * 60 * 1000⟩ with
      | nil => exact absurd hcase hps
      | cons c cs =>
        apply base64urlEncode_ne_nil
        exact utf8Encode_ne_nil c cs
    have hsig : hmacB64 secret (base64urlEncode (utf8Encode (payloadString ⟨sid, tIssue + 60 * 60 * 1000⟩))) ≠ [] := by
      unfold hmacB64
      apply base64urlEncode_ne_nil
      exact sha256_ne_nil _
    have hsplit : splitDots (generateSessionToken secret sid tIssue)
        = [base64urlEncode (utf8Encode (payloadString ⟨sid, tIssue + 60 * 60 * 1000⟩)),
           hmacB64 secret (base64urlEncode (utf8Encode (payloadString ⟨sid, tIssue + 60 * 60 * 1000⟩)))] := by
      unfold generateSessionToken
      exact splitDots_append _ _ (base64urlEncode_no_dot _) (hmacB64_no_dot _ _)
    rw [verify_eq_of_split _ _ _ _ _ _ hsplit]
    rw [if_neg (by simp [hpb, hsig])]
    rw [if_neg (by simp)]
    have hb64 : base64urlDecode (base64urlEncode (utf8Encode (payloadString ⟨sid, tIssue + 60 * 60 * 1000⟩)))
        = some (utf8Encode (payloadString ⟨sid, tIssue + 60 * 60 * 1000⟩)) :=
      base64url_roundtrip _ (utf8Encode_valid _)
    simp only [hb64, utf8_roundtrip, parsePayload_roundtrip]
  · -- characterisation of every accepted token
    intro token now st hv
    cases hsplit : splitDots token with
    | nil =>
      rw [verify_eq_none_of_short secret token now (by simp [hsplit])] at hv
      exact absurd hv (by simp)
    | cons p ps =>
      cases ps with
      | nil =>
        rw [verify_eq_none_of_short secret token now (by simp [hsplit])] at hv
        exact absurd hv (by simp)
      | cons sig rest =>
        rw [verify_eq_of_split secret token now p sig rest hsplit] at hv
        by_cases hemp : p = [] ∨ sig = []
        · rw [if_pos hemp] at hv; exact absurd hv (by simp)
        · rw [if_neg hemp] at hv
          by_cases hsig : sig ≠ hmacB64 secret p
          · rw [if_pos hsig] at hv; exact absurd hv (by simp)
          · rw [if_neg hsig] at hv
            push_neg at hsig
            cases hb : base64urlDecode p with
            | none => simp only [hb] at hv; exact absurd hv (by simp)
            | some bytes =>
              simp only [hb] at hv
              cases hu : utf8Decode bytes with
              | none => simp only [hu] at hv; exact absurd hv (by simp)
              | some payloadStr =>
                simp only [hu] at hv
                cases hp : parsePayload payloadStr with
                | none => simp only [hp] at hv; exact absurd hv (by simp)
                | some payload =>
                  simp only [hp] at hv
                  by_cases hx : payload.exp < now
                  · rw [if_pos hx] at hv; exact absurd hv (by simp)
                  · rw [if_neg hx] at hv
                    simp only [Option.some.injEq] at hv
                    subst hv
                    exact ⟨p, sig, rest, rfl, fun hpe => hemp (Or.inl hpe), hsig,
                      ⟨bytes, payloadStr, hb, hu, hp⟩, hx⟩
  · -- signature mismatch is always rejected
    intro token now hmis
    cases hsplit : splitDots token with
    | nil => exact verify_eq_none_of_short secret token now (by simp [hsplit])
    | cons p ps =>
      cases ps with
      | nil => exact verify_eq_none_of_short secret token now (by simp [hsplit])
      | cons sig rest =>
        rw [verify_eq_of_split secret token now p sig rest hsplit]
        by_cases hemp : p = [] ∨ sig = []
        · rw [if_pos hemp]
        · rw [if_neg hemp]
          rw [if_pos (hmis p sig rest hsplit)]

/-- Witness for C2 at a concrete secret, session id and times. -/
theorem token_codec_correct_witness : TokenCodecSpec [7] ['a'] 0 0 :=
  token_codec_correct [7] ['a'] 0 0

/-! ## CLI session manager (cli-session-manager.ts)

Filesystem calls are modelled by an explicit environment record (`none`
models a thrown error), spawning a child process by an event in the returned
event list, and `randomUUID()` by an explicit fresh-id argument. -/

inductive CliToolId
  | codex
  | claude
  | opencode
deriving DecidableEq

inductive SessionStatus
  | starting
  | running
  | exited
  | error
deriving DecidableEq

structure CliToolConfig where
  id : CliToolId
  name : Str
  command : Str
  args : List Str
  available : Option Bool

structure CreateCliSessionInput where
  projectId : Str
  worktreeId : Str
  cwd : Str
  tool : CliToolId
  title : Option Str
  commandArgs : Option (List Str)

structure SessionRec where
  id : Str
  title : Str
  projectId : Str
  worktreeId : Str
  cwd : Str
  tool : CliToolId
  status : SessionStatus
  buffer : Str

structure Fs where
  resolve : Str → Str
  statIsDir : Str → Option Bool
  realpath : Str → Option Str
  home : Str
  tmp : Str

structure MgrState where
  sessions : List (Str × SessionRec)
  tools : CliToolId → CliToolConfig

inductive MgrEvent
  | spawn (command : Str) (args : List Str) (cwd : Str)

def MAX_SESSIONS_PER_PROJECT : Nat := 10

def MAX_TOTAL_SESSIONS : Nat := 50

/-- JS `s.startsWith(pre)`. -/
def strStartsWith (s pre : Str) : Bool := pre.isPrefixOf s

/-- The `within` test of `resolveCwd`: the real cwd equals the real home or
temp directory or lies strictly inside one of them (`path.sep` is `/`). -/
def withinAllowed (realCwd realHome realTmp : Str) : Bool :=
  realCwd == realHome || strStartsWith realCwd (realHome ++ ['/']) ||
    realCwd == realTmp || strStartsWith realCwd (realTmp ++ ['/'])

/-- `resolveCwd` from cli-session-manager.ts: resolve, require a directory,
resolve symlinks, and require the result inside the home or temp tree. -/
def resolveCwd (fs : Fs) (inputPath : Str) : Except String Str :=
  if inputPath = [] then Except.error "cwd is required"
  else
    match fs.statIsDir (fs.resolve inputPath) with
    | none => Except.error "stat failed"
    | some false => Except.error "cwd must be a directory"
    | some true =>
      match fs.realpath (fs.resolve inputPath) with
      | none => Except.error "realpath failed"
      | some rp =>
        if withinAllowed (fs.resolve rp)
            (fs.resolve ((fs.realpath fs.home).getD fs.home))
            (fs.resolve ((fs.realpath fs.tmp).getD fs.tmp)) then
          Except.ok (fs.resolve rp)
        else Except.error "cwd must be within the home or temp directory"

def countProjectSessions (st : MgrState) (pid : Str) : Nat :=
  (st.sessions.filter (fun s => s.2.projectId == pid)).length

/-- `createSession` from cli-session-manager.ts. In order: global capacity,
per-project capacity, tool lookup (total over the typed tool id, so the
source's unreachable `!toolConfig` guard is dropped), availability, cwd
resolution, then the spawn (the only event) and the table insertion. -/
def createSession (fs : Fs) (st : MgrState) (input : CreateCliSessionInput)
    (freshId : Str) : List MgrEvent × Except String (MgrState × SessionRec) :=
  if MAX_TOTAL_SESSIONS ≤ st.sessions.length then
    ([], Except.error "Maximum total sessions (50) reached")
  else if MAX_SESSIONS_PER_PROJECT ≤ countProjectSessions st input.projectId then
    ([], Except.error "Maximum sessions per project (10) reached")
  else
    if (st.tools input.tool).available == some false then
      ([], Except.error "tool is not available on this system")
    else
      match resolveCwd fs input.cwd with
      | Except.error e => ([], Except.error e)
      | Except.ok resolvedCwd =>
        let toolConfig := st.tools input.tool
        let record : SessionRec := {
          id := freshId
          title :=
            match input.title with
            | some t => if t = [] then toolConfig.name ++ " · ".toList ++ input.worktreeId else t
            | none => toolConfig.name ++ " · ".toList ++ input.worktreeId
          projectId := input.projectId
          worktreeId := input.worktreeId
          cwd := resolvedCwd
          tool := toolConfig.id
          status := SessionStatus.starting
          buffer := [] }
        ([MgrEvent.spawn toolConfig.command
            (toolConfig.args ++ input.commandArgs.getD []) resolvedCwd],
         Except.ok ({ st with sessions := st.sessions ++ [(freshId, record)] }, record))

/-- The session table after a `createSession` call (unchanged when the call
throws). -/
def runCreateSession (fs : Fs) (st : MgrState) (input : CreateCliSessionInput)
    (freshId : Str) : MgrState :=
  match (createSession fs st input freshId).2 with
  | Except.ok (st1, _) => st1
  | Except.error _ => st

/-- The property claimed of the working-directory sandbox: when the
symlink-resolved cwd is outside the home and temp trees, the call spawns
nothing, leaves the session table unchanged and fails; when the earlier
guards (capacity, availability) pass, the failure is exactly the
sandbox-violation error. -/
def SandboxSpec (fs : Fs) (st : MgrState) (input : CreateCliSessionInput)
    (freshId : Str) : Prop :=
  ((createSession fs st input freshId).1 = [] ∧
    runCreateSession fs st input freshId = st ∧
    ∃ msg, (createSession fs st input freshId).2 = Except.error msg) ∧
  (st.sessions.length < MAX_TOTAL_SESSIONS →
    countProjectSessions st input.projectId < MAX_SESSIONS_PER_PROJECT →
    (st.tools input.tool).available ≠ some false →
    (createSession fs st input freshId).2 =
      Except.error "cwd must be within the home or temp directory")

/-- C3: a `createSession` whose working directory resolves (after symlink
resolution) outside the home and temp trees fails before any spawn, even when
the directory exists on disk, and no session record is added. -/
theorem createSession_sandbox (fs : Fs) (st : MgrState)
    (input : CreateCliSessionInput) (freshId : Str) (rp : Str)
    (hnil : input.cwd ≠ [])
    (hstat : fs.statIsDir (fs.resolve input.cwd) = some true)
    (hreal : fs.realpath (fs.resolve input.cwd) = some rp)
    (hout : withinAllowed (fs.resolve rp)
        (fs.resolve ((fs.realpath fs.home).getD fs.home))
        (fs.resolve ((fs.realpath fs.tmp).getD fs.tmp)) = false) :
    SandboxSpec fs st input freshId := by
  have hres : resolveCwd fs input.cwd =
      Except.error "cwd must be within the home or temp directory" := by
    unfold resolveCwd
    rw [if_neg hnil]
    simp [hstat, hreal, hout]
  constructor
  · unfold createSession runCreateSession
    by_cases h1 : MAX_TOTAL_SESSIONS ≤ st.sessions.length
    · rw [if_pos h1]
      exact ⟨rfl, by unfold createSession; rw [if_pos h1], ⟨_, rfl⟩⟩
    · rw [if_neg h1]
      by_cases h2 : MAX_SESSIONS_PER_PROJECT ≤ countProjectSessions st input.projectId
      · rw [if_pos h2]
        exact ⟨rfl, by unfold createSession; rw [if_neg h1, if_pos h2], ⟨_, rfl⟩⟩
      · rw [if_neg h2]
        by_cases h3 : (st.tools input.tool).available == some false
        · rw [if_pos h3]
          exact ⟨rfl, by unfold createSession; rw [if_neg h1, if_neg h2, if_pos h3], ⟨_, rfl⟩⟩
        · rw [if_neg h3, hres]
          exact ⟨rfl, by unfold createSession; rw [if_neg h1, if_neg h2, if_neg h3, hres], ⟨_, rfl⟩⟩
  · intro h1 h2 h3
    unfold createSession
    rw [if_neg (by omega), if_neg (by omega),
      if_neg (by simpa using h3), hres]

/-- A concrete filesystem environment used by witnesses: every path exists,
symlink resolution is the identity. -/
def demoFs : Fs :=
  { resolve := id
    statIsDir := fun _ => some true
    realpath := fun p => some p
    home := "/home/user".toList
    tmp := "/tmp".toList }

def demoTools : CliToolId → CliToolConfig := fun t =>
  { id := t, name := "tool".toList, command := "tool".toList, args := [],
    available := none }

def demoMgr : MgrState := { sessions := [], tools := demoTools }

def demoInput : CreateCliSessionInput :=
  { projectId := "p".toList, worktreeId := "default".toList, cwd := "/etc".toList,
    tool := CliToolId.codex, title := none, commandArgs := none }

/-- Witness for C3: `/etc` exists and is a directory but is outside the
home and temp trees. -/
theorem createSession_sandbox_witness :
    demoInput.cwd ≠ ([] : Str) ∧
    demoFs.statIsDir (demoFs.resolve demoInput.cwd) = some true ∧
    demoFs.realpath (demoFs.resolve demoInput.cwd) = some "/etc".toList ∧
    withinAllowed (demoFs.resolve "/etc".toList)
      (demoFs.resolve ((demoFs.realpath demoFs.home).getD demoFs.home))
      (demoFs.resolve ((demoFs.realpath demoFs.tmp).getD demoFs.tmp)) = false ∧
    SandboxSpec demoFs demoMgr demoInput "s1".toList :=
  ⟨by decide, rfl, rfl, by decide,
    createSession_sandbox demoFs demoMgr demoInput "s1".toList "/etc".toList
      (by decide) rfl rfl (by decide)⟩

/-- The property claimed of the capacity ceilings: the call spawns nothing,
fails with one of the two capacity errors, and the session table is exactly
what it was before. -/
def CapacitySpec (fs : Fs) (st : MgrState) (input : CreateCliSessionInput)
    (freshId : Str) : Prop :=
  (createSession fs st input freshId).1 = [] ∧
  runCreateSession fs st input freshId = st ∧
  ∃ msg, (createSession fs st input freshId).2 = Except.error msg ∧
    (msg = "Maximum total sessions (50) reached" ∨
     msg = "Maximum sessions per project (10) reached")

/-- C4: when the project already has 10 live sessions or the table holds 50,
`createSession` fails synchronously with a capacity error before any spawn,
and the session table is unchanged. -/
theorem createSession_capacity (fs : Fs) (st : MgrState)
    (input : CreateCliSessionInput) (freshId : Str)
    (h : MAX_SESSIONS_PER_PROJECT ≤ countProjectSessions st input.projectId ∨
         MAX_TOTAL_SESSIONS ≤ st.sessions.length) :
    CapacitySpec fs st input freshId := by
  by_cases h1 : MAX_TOTAL_SESSIONS ≤ st.sessions.length
  · refine ⟨?_, ?_, "Maximum total sessions (50) reached", ?_, Or.inl rfl⟩
    · unfold createSession
      rw [if_pos h1]
    · unfold runCreateSession createSession
      rw [if_pos h1]
    · unfold createSession
      rw [if_pos h1]
  · have h2 : MAX_SESSIONS_PER_PROJECT ≤ countProjectSessions st input.projectId := by
      rcases h with h | h
      · exact h
      · exact absurd h h1
    refine ⟨?_, ?_, "Maximum sessions per project (10) reached", ?_, Or.inr rfl⟩
    · unfold createSession
      rw [if_neg h1, if_pos h2]
    · unfold runCreateSession createSession
      rw [if_neg h1, if_pos h2]
    · unfold createSession
      rw [if_neg h1, if_pos h2]

def demoRec : SessionRec :=
  { id := "s".toList, title := [], projectId := "p".toList, worktreeId := [],
    cwd := [], tool := CliToolId.codex, status := SessionStatus.running,
    buffer := [] }

def demoFullMgr : MgrState :=
  { sessions := List.replicate 10 ("s".toList, demoRec), tools := demoTools }

/-- Witness for C4: a project that already owns 10 sessions. -/
theorem createSession_capacity_witness :
    (MAX_SESSIONS_PER_PROJECT ≤ countProjectSessions demoFullMgr demoInput.projectId ∨
      MAX_TOTAL_SESSIONS ≤ demoFullMgr.sessions.length) ∧
    CapacitySpec demoFs demoFullMgr demoInput "s1".toList :=
  ⟨Or.inl (by decide),
    createSession_capacity demoFs demoFullMgr demoInput "s1".toList (Or.inl (by decide))⟩

/-! ## Project manager (project-manager.ts)

`path.resolve`, `fs.stat`, `fs.realpath`/`realpathSync` and `process.cwd()`
are an explicit environment; `Date.now()` is an explicit argument; a JS
`Map` is an association list keyed by project id; `markDirty`/`saveProjects`
are a dirty flag and a persist event. -/

structure PEnv where
  resolve : Str → Str
  statIsDir : Str → Option Bool
  realpath : Str → Option Str
  cwd : Str

def replaceBackslashes (s : Str) : Str :=
  s.map (fun c => if c = '\\' then '/' else c)

/-- JS `.replace(/\/+$/, "")`: remove the trailing run of slashes. -/
def dropTrailingSlashes (s : Str) : Str :=
  (s.reverse.dropWhile (fun c => c = '/')).reverse

/-- `normalizePath` from project-manager.ts. -/
def normalizePath (env : PEnv) (value : Str) : Str :=
  dropTrailingSlashes (replaceBackslashes (env.resolve value))

/-- `canonicalizePath` from project-manager.ts (realpathSync with fallback). -/
def canonicalizePath (env : PEnv) (value : Str) : Str :=
  match env.realpath (normalizePath env value) with
  | some real => normalizePath env real
  | none => normalizePath env value

def isLowerAlnum (c : Char) : Bool :=
  ('a' ≤ c && c ≤ 'z') || ('0' ≤ c && c ≤ '9')

/-- `.replace(/[^a-z0-9]+/g, "-")`: each maximal run of other characters
becomes a single dash. -/
theorem length_dropWhile_le (p : Char → Bool) (l : Str) :
    (l.dropWhile p).length ≤ l.length := by
  induction l with
  | nil => simp
  | cons c cs ih =>
    rw [List.dropWhile]
    by_cases h : p c
    · rw [h]
      simp only [List.length_cons]
      omega
    · rw [Bool.not_eq_true] at h
      rw [h]

/-- Fuel-indexed worker for `squashNonAlnum`: each step consumes at least one
character, so fuel `s.length` always suffices and the zero-fuel case is
unreachable. -/
def squashNonAlnumF : Nat → Str → Str
  | _, [] => []
  | 0, _ :: _ => []
  | fuel + 1, c :: cs =>
    if isLowerAlnum c then c :: squashNonAlnumF fuel cs
    else '-' :: squashNonAlnumF fuel (cs.dropWhile (fun d => ¬ isLowerAlnum d))

def squashNonAlnum (s : Str) : Str := squashNonAlnumF s.length s

/-- `.replace(/^-+|-+$/g, "")`. -/
def dropDashesEnds (s : Str) : Str :=
  ((s.dropWhile (fun c => c = '-')).reverse.dropWhile (fun c => c = '-')).reverse

/-- `slugify` from project-manager.ts. -/
def slugify (value : Str) : Str :=
  let r := (dropDashesEnds (squashNonAlnum (value.map Char.toLower))).take 64
  if r = [] then "worktree".toList else r

/-- `path.basename` (POSIX). -/
def basename (p : Str) : Str :=
  match dropTrailingSlashes p with
  | [] => if p = [] then [] else ['/']
  | t => (t.reverse.takeWhile (fun c => ¬ c = '/')).reverse

def isJsSpace (c : Char) : Bool :=
  c.toNat = 9 || c.toNat = 10 || c.toNat = 11 || c.toNat = 12 || c.toNat = 13 ||
    c.toNat = 32 || c.toNat = 160 || c.toNat = 65279

/-- JS `String.prototype.trim`. -/
def strTrim (s : Str) : Str :=
  ((s.dropWhile isJsSpace).reverse.dropWhile isJsSpace).reverse

/-- The `/[\/_]/` test. -/
def hasSlashOrUnderscore (s : Str) : Bool :=
  s.any (fun c => c = '/' || c = '_')

structure WorktreeMetadata where
  id : Str
  path : Str
  title : Str
deriving DecidableEq

structure ProjectSettings where
  autoPrompt : Bool
  promptCharLimit : Nat
deriving DecidableEq

/-- `applyDefaultSettings` from project-manager.ts. -/
def applyDefaultSettings (settings : Option ProjectSettings) : ProjectSettings :=
  { autoPrompt := (settings.map (fun s => s.autoPrompt)).getD true
    promptCharLimit :=
      min 20000 (max 1000 ((settings.map (fun s => s.promptCharLimit)).getD 8000)) }

structure ProjectInfo where
  id : Str
  name : Str
  path : Str
  lastAccessed : Nat
  /-- `worktrees?: WorktreeMetadata[]`; `undefined` is modelled as `[]`. -/
  worktrees : List WorktreeMetadata
  settings : Option ProjectSettings
deriving DecidableEq

structure PMState where
  projects : List (Str × ProjectInfo)
  dirty : Bool
deriving DecidableEq

def pmLookup (st : PMState) (pid : Str) : Option ProjectInfo :=
  (st.projects.find? (fun kv => kv.1 == pid)).map (fun kv => kv.2)

def pmUpdate (st : PMState) (pid : Str) (info : ProjectInfo) : PMState :=
  { st with projects := st.projects.map (fun kv => if kv.1 == pid then (kv.1, info) else kv) }

/-- JS `Map.set`: replace in place when present, append when absent. -/
def pmSet (st : PMState) (pid : Str) (info : ProjectInfo) : PMState :=
  if st.projects.any (fun kv => kv.1 == pid) then pmUpdate st pid info
  else { st with projects := st.projects ++ [(pid, info)] }

/-- Replace the first element satisfying `p` by its image under `f`. -/
def updateFirst (p : WorktreeMetadata → Bool) (f : WorktreeMetadata → WorktreeMetadata) :
    List WorktreeMetadata → List WorktreeMetadata
  | [] => []
  | w :: ws => if p w then f w :: ws else w :: updateFirst p f ws

def defaultStr : Str := "default".toList

/-- The in-place mutation of the first `"default"` entry in
`ensureDefaultWorktree`. -/
def markFirstDefault (ws : List WorktreeMetadata) (npp : Str) : List WorktreeMetadata :=
  updateFirst (fun w => w.id == defaultStr)
    (fun w => { w with path := npp, title := defaultStr }) ws

/-- `ensureDefaultWorktree` from project-manager.ts. -/
def ensureDefaultWorktree (env : PEnv) (info : ProjectInfo) : ProjectInfo :=
  let npp := canonicalizePath env info.path
  let ws1 :=
    if (info.worktrees.find? (fun w => w.id == defaultStr)).isSome then
      markFirstDefault info.worktrees npp
    else
      info.worktrees ++ [⟨defaultStr, npp, defaultStr⟩]
  let ws2 := ws1.map (fun w =>
    { w with
      path := canonicalizePath env (if w.path = [] then npp else w.path),
      title := if w.id == defaultStr then defaultStr
               else if w.title = [] then w.id else w.title })
  { info with
    path := npp,
    worktrees := ws2,
    settings := some (applyDefaultSettings info.settings) }

/-- `generateWorktreeId`: slug, then `-2`, `-3`, … until free. The unbounded
while loop terminates within `reserved.length + 2` probes because the probed
candidates are distinct; the fuel argument makes that bound explicit. -/
def firstFreeCandidate (reserved : List Str) (base : Str) : Nat → Nat → Str
  | counter, 0 => base ++ '-' :: natToDigits counter
  | counter, fuel + 1 =>
    let candidate := base ++ '-' :: natToDigits counter
    if reserved.contains candidate || candidate == defaultStr then
      firstFreeCandidate reserved base (counter + 1) fuel
    else candidate

def generateWorktreeId (info : ProjectInfo) (title : Str) : Str :=
  let base := slugify title
  let reserved := info.worktrees.map (fun w => w.id)
  if ¬ reserved.contains base ∧ base ≠ defaultStr then base
  else firstFreeCandidate reserved base 2 (reserved.length + 2)

def toHex (bs : Bytes) : Str :=
  bs.foldr (fun b acc => hexDigit (b / 16) :: hexDigit (b % 16) :: acc) []

/-- `getGitProjectId`: first 16 hex characters of the SHA-256 of the resolved
absolute path. -/
def getGitProjectId (env : PEnv) (projectPath : Str) : Str :=
  (toHex (sha256 (utf8Encode
    (if strStartsWith projectPath ['/'] then projectPath
     else env.cwd ++ '/' :: projectPath)))).take 16

inductive PMEvent
  | stat (path : Str)
  | realpath (path : Str)
  | persist

/-- `saveProjects`: writes only when the dirty flag is set. -/
def saveProjects (st : PMState) : List PMEvent × PMState :=
  if st.dirty then ([PMEvent.persist], { st with dirty := false }) else ([], st)

/-- The `canonicalPath` computed inside `addProject` (realpath with fallback
to the normalized path). -/
def addCanonical (env : PEnv) (projectPath : Str) : Str :=
  match env.realpath (normalizePath env projectPath) with
  | some r => normalizePath env r
  | none => normalizePath env projectPath

/-- The `updated` flag of the `existing`-project branch of `addProject`
(`pathChanged || nameChanged` in the source). -/
def addExistingUpdated (existing : ProjectInfo) (canonicalPath : Str)
    (name : Option Str) : Prop :=
  existing.path ≠ canonicalPath ∨
    ((match name with | some n => strTrim n | none => []) ≠ [] ∧
     existing.name ≠ (match name with | some n => strTrim n | none => []))

instance (existing : ProjectInfo) (canonicalPath : Str) (name : Option Str) :
    Decidable (addExistingUpdated existing canonicalPath name) := by
  unfold addExistingUpdated
  exact inferInstance

/-- The updated record produced by the `existing`-project branch of
`addProject` (path refresh, optional rename, default-worktree normalization
when something changed, last-accessed touch). -/
def addExistingInfo (env : PEnv) (existing : ProjectInfo) (canonicalPath : Str)
    (name : Option Str) (now : Nat) : ProjectInfo :=
  let incomingName := match name with | some n => strTrim n | none => []
  let info1 := if existing.path = canonicalPath then existing
               else { existing with path := canonicalPath }
  let info2 := if incomingName ≠ [] ∧ info1.name ≠ incomingName
               then { info1 with name := incomingName } else info1
  let info3 := if addExistingUpdated existing canonicalPath name
               then ensureDefaultWorktree env info2 else info2
  { info3 with lastAccessed := now }

/-- The fresh record built by the new-project branch of `addProject`. -/
def addNewInfo (env : PEnv) (canonicalPath : Str) (name : Option Str)
    (now : Nat) : ProjectInfo :=
  let fallbackName :=
    match (canonicalPath.reverse.takeWhile (fun c => ¬ c = '/')).reverse with
    | [] => "Unknown Project".toList
    | seg => seg
  let nm := match name with
    | some n => if n = [] then fallbackName else n
    | none => fallbackName
  { id := getGitProjectId env canonicalPath, name := nm, path := canonicalPath,
    lastAccessed := now,
    worktrees := [⟨defaultStr, canonicalPath, defaultStr⟩],
    settings := some (applyDefaultSettings none) }

/-- `addProject` from project-manager.ts. The interpolated parts of the
source's error messages are omitted. -/
def addProject (env : PEnv) (st : PMState) (projectPath : Str) (name : Option Str)
    (now : Nat) : List PMEvent × Except String (PMState × ProjectInfo) :=
  if ¬ strStartsWith projectPath ['/'] then
    ([], Except.error "Project path must be absolute")
  else
    match env.statIsDir (normalizePath env projectPath) with
    | none => ([PMEvent.stat (normalizePath env projectPath)],
        Except.error "Project path does not exist")
    | some false => ([PMEvent.stat (normalizePath env projectPath)],
        Except.error "Project path is not a directory")
    | some true =>
      let canonicalPath := addCanonical env projectPath
      let projectId := getGitProjectId env canonicalPath
      let baseEvents := [PMEvent.stat (normalizePath env projectPath),
        PMEvent.realpath (normalizePath env projectPath)]
      match pmLookup st projectId with
      | some existing =>
        let info4 := addExistingInfo env existing canonicalPath name now
        let dirty1 := st.dirty ||
          decide (addExistingUpdated existing canonicalPath name)
        let st1 := { pmUpdate st projectId info4 with dirty := dirty1 }
        let sp := saveProjects st1
        (baseEvents ++ sp.1, Except.ok (sp.2, info4))
      | none =>
        let info1 := ensureDefaultWorktree env (addNewInfo env canonicalPath name now)
        let st1 := { pmSet st projectId info1 with dirty := true }
        let sp := saveProjects st1
        (baseEvents ++ sp.1, Except.ok (sp.2, info1))

/-- The project table after an `addProject` call (unchanged when it throws). -/
def runAddProject (env : PEnv) (st : PMState) (projectPath : Str)
    (name : Option Str) (now : Nat) : PMState :=
  match (addProject env st projectPath name now).2 with
  | Except.ok (st1, _) => st1
  | Except.error _ => st

/-- `getWorktrees`: normalize, then snapshot a copy of the metadata list. -/
def getWorktrees (env : PEnv) (st : PMState) (pid : Str) :
    PMState × List WorktreeMetadata :=
  match pmLookup st pid with
  | none => (st, [])
  | some inst =>
    let info := ensureDefaultWorktree env inst
    (pmUpdate st pid info, info.worktrees)

/-- `findWorktreeById`: normalize, then search by id. -/
def findWorktreeById (env : PEnv) (st : PMState) (pid wid : Str) :
    PMState × Option WorktreeMetadata :=
  match pmLookup st pid with
  | none => (st, none)
  | some inst =>
    let info := ensureDefaultWorktree env inst
    (pmUpdate st pid info, info.worktrees.find? (fun w => w.id == wid))

/-- The title-overwrite decision inside `ensureWorktreeMetadata` for a
matched entry whose stored path has already been refreshed to
`normalizedPath`. -/
def titleAfterEnsure (existing : WorktreeMetadata) (title : Str) : Str :=
  let normalizedIncoming := strTrim title
  let current := strTrim existing.title
  let incomingSlug := slugify normalizedIncoming
  let currentSlug := if current = [] then [] else slugify current
  let incomingLooksSluggy :=
    normalizedIncoming = [] ∨ normalizedIncoming = incomingSlug ∨
      hasSlashOrUnderscore normalizedIncoming
  let currentLooksSluggy :=
    current = [] ∨ current = existing.id ∨ current = existing.path ∨
      current = basename existing.path ∨ current = currentSlug ∨
      hasSlashOrUnderscore current
  if current = [] ∨ (currentLooksSluggy ∧ ¬ incomingLooksSluggy) then
    normalizedIncoming
  else existing.title

/-- `ensureWorktreeMetadata` from project-manager.ts: find by canonical path
(refreshing the stored path and optionally upgrading the title) or create a
fresh entry. -/
def ensureWorktreeMetadata (env : PEnv) (st : PMState) (projectId worktreePath : Str)
    (title : Option Str) : PMState × Option WorktreeMetadata :=
  match pmLookup st projectId with
  | none => (st, none)
  | some inst =>
    let info := ensureDefaultWorktree env inst
    let normalizedPath := canonicalizePath env worktreePath
    match info.worktrees.find?
        (fun w => canonicalizePath env w.path == normalizedPath) with
    | some existing =>
      let pathChanged := existing.path ≠ normalizedPath
      let existing1 := { existing with path := normalizedPath }
      let titleChanged : Bool :=
        match title with
        | some t => decide (t ≠ []) && decide (existing1.title ≠ t)
        | none => false
      let newTitle :=
        match title with
        | some t =>
          if t ≠ [] ∧ existing1.title ≠ t then titleAfterEnsure existing1 t
          else existing1.title
        | none => existing1.title
      let existing2 := { existing1 with title := newTitle }
      let wsNew := updateFirst (fun w => canonicalizePath env w.path == normalizedPath)
        (fun _ => existing2) info.worktrees
      let info1 := { info with worktrees := wsNew }
      let titleWrote : Bool :=
        match title with
        | some t => decide (t ≠ []) && decide (existing1.title ≠ t) &&
            decide (newTitle = strTrim t) && decide (existing1.title ≠ strTrim t)
        | none => false
      let dirty1 := st.dirty || decide pathChanged || (titleChanged && titleWrote)
      ({ pmUpdate st projectId info1 with dirty := dirty1 }, some existing2)
    | none =>
      let worktreeTitle :=
        match title with
        | some t =>
          if t = [] then
            (match basename normalizedPath with
             | [] => "worktree".toList
             | b => b)
          else t
        | none =>
          match basename normalizedPath with
          | [] => "worktree".toList
          | b => b
      let wid := generateWorktreeId info worktreeTitle
      let metadata : WorktreeMetadata := ⟨wid, normalizedPath, worktreeTitle⟩
      let info1 := { info with worktrees := info.worktrees ++ [metadata] }
      ({ pmUpdate st projectId info1 with dirty := true }, some metadata)

/-- `updateWorktreeTitle` from project-manager.ts (no guard for the default
entry). -/
def updateWorktreeTitle (env : PEnv) (st : PMState) (pid wid title : Str) :
    PMState × Except String WorktreeMetadata :=
  match pmLookup st pid with
  | none => (st, Except.error "Project not found")
  | some inst =>
    let info := ensureDefaultWorktree env inst
    match info.worktrees.find? (fun w => w.id == wid) with
    | none => (pmUpdate st pid info, Except.error "Worktree not found")
    | some metadata =>
      let metadata1 := { metadata with title := title }
      let wsNew := updateFirst (fun w => w.id == wid) (fun _ => metadata1) info.worktrees
      let info1 := { info with worktrees := wsNew }
      ({ pmUpdate st pid info1 with dirty := true }, Except.ok metadata1)

/-- `removeWorktreeMetadata` from project-manager.ts: the normalization step
runs (and its mutation is kept) before the default-entry rejection. -/
def removeWorktreeMetadata (env : PEnv) (st : PMState) (pid wid : Str) :
    PMState × Except String Unit :=
  match pmLookup st pid with
  | none => (st, Except.error "Project not found")
  | some inst =>
    let info := ensureDefaultWorktree env inst
    let st1 := pmUpdate st pid info
    if wid == defaultStr then (st1, Except.error "Cannot remove default worktree")
    else
      let ws1 := info.worktrees.filter (fun w => ¬ w.id == wid)
      let changed := ws1.length ≠ info.worktrees.length
      let dirty1 := st.dirty || decide changed
      ({ pmUpdate st pid { info with worktrees := ws1 } with dirty := dirty1 },
        Except.ok ())

/-! ## Worktree routes (integrated-project-routes.ts)

Git invocations are events; `gitOk` stands for the exit status of
`git worktree remove`. -/

inductive RouteEvent
  | gitWorktreeRemove (args : List Str) (cwd : Str)

/-- `DELETE /api/projects/:id/worktrees/:worktreeId`. The trailing
`saveProjects` and re-listing of the success path are not modelled (they do
not change which metadata records exist). -/
def deleteWorktreeRoute (env : PEnv) (st : PMState) (pid wid : Str)
    (force : Bool) (gitOk : Bool) :
    List RouteEvent × PMState × Except (Nat × String) Unit :=
  match pmLookup st pid with
  | none => ([], st, Except.error (404, "Project not found"))
  | some _ =>
    match findWorktreeById env st pid wid with
    | (st1, none) => ([], st1, Except.error (404, "Worktree not found"))
    | (st1, some metadata) =>
      if metadata.id == defaultStr then
        ([], st1, Except.error (400, "Cannot remove default worktree"))
      else
        let args := ["worktree".toList, "remove".toList] ++
          (if force then ["--force".toList] else []) ++ [metadata.path]
        match pmLookup st1 pid with
        | none => ([RouteEvent.gitWorktreeRemove args []], st1,
            Except.error (400, "Failed to remove worktree"))
        | some project =>
          if gitOk then
            ([RouteEvent.gitWorktreeRemove args project.path],
              (removeWorktreeMetadata env st1 pid metadata.id).1, Except.ok ())
          else
            ([RouteEvent.gitWorktreeRemove args project.path], st1,
              Except.error (400, "Failed to remove worktree"))

/-! ## Worktree reconciler (`buildWorktreeResponses`)

`parsed` is the live worktree list after `git worktree list --porcelain`
parsing (entry paths normalized at parse time), pruning and the
existing-on-disk filter; those external-process steps are represented by
taking `parsed` as the input. -/

structure ParsedWorktree where
  path : Str
  branch : Option Str
  relativePath : Str

/-- `findMetadataForEntry`: exact normalized-path match, then real-path
matches in both directions. The source caches each candidate's
`normalizedPath`/`realPath`; here they are recomputed, which agrees because
the cache is refreshed (`registerMetadata`) whenever a stored path changes. -/
def candNorm (env : PEnv) (m : WorktreeMetadata) : Str := normalizePath env m.path

def candReal (env : PEnv) (m : WorktreeMetadata) : Option Str :=
  (env.realpath m.path).map (normalizePath env)

def findMetadataForEntry (env : PEnv) (cands : List WorktreeMetadata)
    (entryPath : Str) : Option WorktreeMetadata :=
  let ne := normalizePath env entryPath
  match cands.find? (fun i => candNorm env i == ne) with
  | some m => some m
  | none =>
    match (env.realpath entryPath).map (normalizePath env) with
    | some entryReal =>
      match cands.find? (fun i =>
          candNorm env i == entryReal || candReal env i == some entryReal) with
      | some m => some m
      | none =>
        match cands.find? (fun i => candReal env i == some ne) with
        | some m => some m
        | none => none
    | none =>
      match cands.find? (fun i => candReal env i == some ne) with
      | some m => some m
      | none => none

structure BuildAcc where
  st : PMState
  cands : List WorktreeMetadata
  responses : List (Str × Str × Str)

/-- The per-entry body of the response loop: find metadata among the
candidates, else synthesize it (title from branch, else relative path, else
path) and register it as a new candidate. -/
def processEntry (env : PEnv) (pid : Str) (acc : BuildAcc) (entry : ParsedWorktree) :
    Except String BuildAcc :=
  match findMetadataForEntry env acc.cands entry.path with
  | some m =>
    Except.ok { acc with responses := acc.responses ++ [(m.id, m.title, m.path)] }
  | none =>
    let title :=
      match entry.branch with
      | some b =>
        if b = [] then (if entry.relativePath = [] then entry.path else entry.relativePath)
        else b
      | none => if entry.relativePath = [] then entry.path else entry.relativePath
    match ensureWorktreeMetadata env acc.st pid entry.path (some title) with
    | (st1, some m) =>
      Except.ok { st := st1
                  cands := acc.cands ++ [m]
                  responses := acc.responses ++ [(m.id, m.title, m.path)] }
    | (_, none) => Except.error "Unable to resolve metadata for worktree"

/-- The orphan-cleanup loop: every snapshot record other than `"default"`
whose normalized stored path is not among this round's live entry paths is
removed (failures of the inner remove are caught and ignored, which the
state-returning `removeWorktreeMetadata` already models). -/
def cleanupOrphans (env : PEnv) (pid : Str) (presentPaths : List Str)
    (metadataList : List WorktreeMetadata) (st : PMState) : PMState :=
  metadataList.foldl (fun s meta =>
    if meta.id == defaultStr then s
    else if presentPaths.contains (normalizePath env meta.path) then s
    else (removeWorktreeMetadata env s pid meta.id).1) st

/-- `buildWorktreeResponses` from integrated-project-routes.ts, from the
point where the parsed live list is available. -/
def buildWorktreeResponses (env : PEnv) (st : PMState) (pid : Str)
    (parsed : List ParsedWorktree) :
    Except String (PMState × List (Str × Str × Str)) :=
  match pmLookup st pid with
  | none => Except.error "Project not found"
  | some _ =>
    match getWorktrees env st pid with
    | (st1, metadataList) =>
      match parsed.foldlM (processEntry env pid) ⟨st1, metadataList, []⟩ with
      | Except.error e => Except.error e
      | Except.ok acc =>
        Except.ok (cleanupOrphans env pid (parsed.map (fun p => p.path)) metadataList acc.st,
          acc.responses)

/-! ### List and table lemmas -/

theorem find?_eq_filter_head {α : Type} (q : α → Bool) (l : List α) :
    l.find? q = (l.filter q).head? := by
  induction l with
  | nil => rfl
  | cons a as ih =>
    rw [List.find?, List.filter]
    by_cases h : q a
    · rw [h]; rfl
    · rw [Bool.not_eq_true] at h
      rw [h]
      exact ih

theorem filter_map_of_pred {α : Type} (f : α → α) (q : α → Bool)
    (hf : ∀ w, q (f w) = q w) (ws : List α) :
    (ws.map f).filter q = (ws.filter q).map f := by
  induction ws with
  | nil => rfl
  | cons a as ih =>
    rw [List.map, List.filter, List.filter, hf]
    by_cases h : q a
    · rw [h]
      simp only [List.map, ih]
    · rw [Bool.not_eq_true] at h
      rw [h]
      exact ih

theorem updateFirst_filter_eq (p : WorktreeMetadata → Bool)
    (f : WorktreeMetadata → WorktreeMetadata) (q : WorktreeMetadata → Bool)
    (ws : List WorktreeMetadata)
    (hq : ∀ w ∈ ws, p w = true → q w = false)
    (hfq : ∀ w ∈ ws, p w = true → q (f w) = false) :
    (updateFirst p f ws).filter q = ws.filter q := by
  induction ws with
  | nil => rfl
  | cons a as ih =>
    rw [updateFirst]
    by_cases h : p a
    · rw [if_pos h, List.filter, List.filter,
        hq a (by simp) h, hfq a (by simp) h]
    · rw [if_neg h, List.filter, List.filter]
      by_cases hqa : q a
      · rw [hqa]
        rw [ih (fun w hw => hq w (by simp [hw])) (fun w hw => hfq w (by simp [hw]))]
      · rw [Bool.not_eq_true] at hqa
        rw [hqa]
        exact ih (fun w hw => hq w (by simp [hw])) (fun w hw => hfq w (by simp [hw]))

theorem find?_map_update (l : List (Str × ProjectInfo)) (pid : Str) (v : ProjectInfo)
    (h : (l.find? (fun kv => kv.1 == pid)).isSome) :
    (l.map (fun kv => if kv.1 == pid then (kv.1, v) else kv)).find?
        (fun kv => kv.1 == pid) = some (pid, v) := by
  induction l with
  | nil => simp [List.find?] at h
  | cons kv kvs ih =>
    by_cases hk : (kv.1 == pid) = true
    · have hid : kv.1 = pid := by simpa using hk
      rw [List.map]
      rw [if_pos hk]
      rw [List.find?_cons_of_pos _ (by simpa using hk)]
      rw [hid]
    · have hk2 : (kv.1 == pid) = false := by
        rw [Bool.not_eq_true] at hk
        exact hk
      rw [List.map, if_neg (by simp [hk2])]
      rw [List.find?_cons_of_neg _ (by simp [hk2])]
      rw [List.find?_cons_of_neg _ (by simp [hk2])] at h
      exact ih h

theorem pmLookup_pmUpdate_self (st : PMState) (pid : Str) (v inst : ProjectInfo)
    (h : pmLookup st pid = some inst) : pmLookup (pmUpdate st pid v) pid = some v := by
  unfold pmLookup at h ⊢
  unfold pmUpdate
  have hs : (st.projects.find? (fun kv => kv.1 == pid)).isSome := by
    cases hc : st.projects.find? (fun kv => kv.1 == pid) with
    | none => rw [hc] at h; simp at h
    | some kv => rfl
  rw [find?_map_update st.projects pid v hs]
  rfl

theorem pmLookup_pmUpdate_isSome (st : PMState) (pid : Str) (v : ProjectInfo)
    (h : (pmLookup st pid).isSome) : (pmLookup (pmUpdate st pid v) pid).isSome := by
  cases hl : pmLookup st pid with
  | none => rw [hl] at h; simp at h
  | some inst => rw [pmLookup_pmUpdate_self st pid v inst hl]; rfl

/-! ### C5: the reserved default worktree -/

/-- Exactly one metadata entry has id `"default"`, with the project's
canonical path and the fixed title. -/
def defaultOk (env : PEnv) (info : ProjectInfo) : Prop :=
  info.worktrees.filter (fun w => w.id == defaultStr)
    = [⟨defaultStr, canonicalizePath env info.path, defaultStr⟩]

def atMostOneDefault (info : ProjectInfo) : Prop :=
  (info.worktrees.filter (fun w => w.id == defaultStr)).length ≤ 1

theorem filter_markFirstDefault (ws : List WorktreeMetadata) (npp : Str)
    (h1 : (ws.filter (fun w => w.id == defaultStr)).length ≤ 1)
    (h2 : (ws.find? (fun w => w.id == defaultStr)).isSome) :
    (markFirstDefault ws npp).filter (fun w => w.id == defaultStr)
      = [⟨defaultStr, npp, defaultStr⟩] := by
  induction ws with
  | nil => simp [List.find?] at h2
  | cons x xs ih =>
    unfold markFirstDefault updateFirst
    by_cases hx : x.id == defaultStr
    · rw [if_pos hx]
      rw [List.filter]
      have hx2 : ({ x with path := npp, title := defaultStr } : WorktreeMetadata).id
          == defaultStr := hx
      rw [hx2]
      have hxs : xs.filter (fun w => w.id == defaultStr) = [] := by
        rw [List.filter] at h1
        rw [hx] at h1
        simp only [List.length_cons] at h1
        have : (xs.filter (fun w => w.id == defaultStr)).length = 0 := by omega
        exact List.length_eq_zero.mp this
      rw [hxs]
      have hid : x.id = defaultStr := by
        simpa using hx
      simp [hid]
    · rw [if_neg hx]
      rw [List.filter]
      have hx2 : (x.id == defaultStr) = false := by
        rw [Bool.not_eq_true] at hx
        exact hx
      rw [hx2]
      have h1s : (xs.filter (fun w => w.id == defaultStr)).length ≤ 1 := by
        rw [List.filter, hx2] at h1
        exact h1
      have h2s : (xs.find? (fun w => w.id == defaultStr)).isSome := by
        rw [List.find?, hx2] at h2
        exact h2
      exact ih h1s h2s

theorem filter_append_default (ws : List WorktreeMetadata) (npp : Str)
    (h : ws.find? (fun w => w.id == defaultStr) = none) :
    (ws ++ [WorktreeMetadata.mk defaultStr npp defaultStr]).filter
        (fun w => w.id == defaultStr)
      = [WorktreeMetadata.mk defaultStr npp defaultStr] := by
  rw [List.filter_append]
  have hnil : ws.filter (fun w => w.id == defaultStr) = [] := by
    rw [List.filter_eq_nil]
    intro w hw
    have := List.find?_eq_none.mp h w hw
    simpa using this
  rw [hnil]
  simp

/-- `ensureDefaultWorktree` establishes the default-worktree invariant from
any project with at most one default entry. -/
theorem ensureDefault_establishes (env : PEnv) (info : ProjectInfo)
    (h : atMostOneDefault info) :
    defaultOk env (ensureDefaultWorktree env info) := by
  unfold defaultOk ensureDefaultWorktree
  simp only []
  set npp := canonicalizePath env info.path with hnpp
  set f : WorktreeMetadata → WorktreeMetadata := fun w =>
    { w with
      path := canonicalizePath env (if w.path = [] then npp else w.path),
      title := if w.id == defaultStr then defaultStr
               else if w.title = [] then w.id else w.title } with hf
  have hfq : ∀ w, ((f w).id == defaultStr) = (w.id == defaultStr) := fun w => rfl
  by_cases hfind : (info.worktrees.find? (fun w => w.id == defaultStr)).isSome
  · rw [if_pos hfind]
    rw [filter_map_of_pred f _ hfq]
    rw [filter_markFirstDefault info.worktrees npp h hfind]
    simp [hf]
  · rw [if_neg hfind]
    rw [filter_map_of_pred f _ hfq]
    have hnone : info.worktrees.find? (fun w => w.id == defaultStr) = none := by
      cases hc : info.worktrees.find? (fun w => w.id == defaultStr) with
      | none => rfl
      | some w => rw [hc] at hfind; simp at hfind
    rw [filter_append_default info.worktrees npp hnone]
    simp [hf]

/-- The property claimed (amended) of the reserved default worktree: the
normalization pass run at the start of every worktree operation establishes
exactly one `"default"` entry with the project's canonical path and the fixed
title; removal of it through the registry is rejected with the specific error
while the entry remains; the removal endpoint rejects it regardless of the
force flag without invoking git; and a title rename aimed at another worktree
preserves the invariant. (A rename aimed at `"default"` itself goes through —
see the counterexample — until the next normalization resets the title.) -/
def DefaultWorktreeSpec (env : PEnv) (info : ProjectInfo) (st : PMState)
    (pid : Str) (inst : ProjectInfo) (force gitOk : Bool) (wid title : Str) : Prop :=
  defaultOk env (ensureDefaultWorktree env info) ∧
  ((removeWorktreeMetadata env st pid defaultStr).2
      = Except.error "Cannot remove default worktree" ∧
    pmLookup (removeWorktreeMetadata env st pid defaultStr).1 pid
      = some (ensureDefaultWorktree env inst) ∧
    defaultOk env (ensureDefaultWorktree env inst)) ∧
  ((deleteWorktreeRoute env st pid defaultStr force gitOk).1 = [] ∧
    (deleteWorktreeRoute env st pid defaultStr force gitOk).2.2
      = Except.error (400, "Cannot remove default worktree") ∧
    pmLookup (deleteWorktreeRoute env st pid defaultStr force gitOk).2.1 pid
      = some (ensureDefaultWorktree env inst) ∧
    defaultOk env (ensureDefaultWorktree env inst)) ∧
  (∃ inst1, pmLookup (updateWorktreeTitle env st pid wid title).1 pid = some inst1 ∧
    defaultOk env inst1)

/-- C5 (amended): the default worktree invariant and the rejection of every
removal of the default entry. -/
theorem default_worktree_protected (env : PEnv) (info : ProjectInfo)
    (st : PMState) (pid : Str) (inst : ProjectInfo) (force gitOk : Bool)
    (wid title : Str)
    (hinfo : atMostOneDefault info)
    (hlook : pmLookup st pid = some inst)
    (hinst : atMostOneDefault inst)
    (hwid : wid ≠ defaultStr) :
    DefaultWorktreeSpec env info st pid inst force gitOk wid title := by
  have hens := ensureDefault_establishes env inst hinst
  have hfinddef : (ensureDefaultWorktree env inst).worktrees.find?
      (fun w => w.id == defaultStr)
      = some ⟨defaultStr, canonicalizePath env (ensureDefaultWorktree env inst).path,
          defaultStr⟩ := by
    rw [find?_eq_filter_head]
    rw [hens]
    rfl
  refine ⟨ensureDefault_establishes env info hinfo, ?_, ?_, ?_⟩
  · -- registry-level removal of "default"
    unfold removeWorktreeMetadata
    simp only [hlook]
    rw [if_pos (by simp)]
    exact ⟨rfl, pmLookup_pmUpdate_self st pid _ inst hlook, hens⟩
  · -- endpoint-level removal of "default", any force flag
    unfold deleteWorktreeRoute
    simp only [hlook]
    unfold findWorktreeById
    simp only [hlook]
    simp only [hfinddef]
    rw [if_pos (by simp)]
    exact ⟨rfl, rfl, pmLookup_pmUpdate_self st pid _ inst hlook, hens⟩
  · -- a rename aimed elsewhere preserves the invariant
    unfold updateWorktreeTitle
    simp only [hlook]
    cases hfind : (ensureDefaultWorktree env inst).worktrees.find?
        (fun w => w.id == wid) with
    | none =>
      simp only [hfind]
      exact ⟨ensureDefaultWorktree env inst,
        pmLookup_pmUpdate_self st pid _ inst hlook, hens⟩
    | some metadata =>
      simp only [hfind]
      have hmid : metadata.id = wid := by
        have := List.find?_some hfind
        simpa using this
      refine ⟨_, pmLookup_pmUpdate_self st pid _ inst hlook, ?_⟩
      unfold defaultOk
      simp only []
      rw [updateFirst_filter_eq]
      · exact hens
      · intro w _ hw
        have : w.id = wid := by simpa using hw
        simp [this, hwid]
      · intro w _ _
        have : metadata.id = wid := hmid
        simp [this, hwid]

/-- Concrete environment and registry state for the worktree witnesses. -/
def cEnv : PEnv :=
  { resolve := id
    statIsDir := fun _ => some true
    realpath := fun p => some p
    cwd := "/".toList }

def cInfo : ProjectInfo :=
  { id := "p1".toList, name := "P".toList, path := "/home/u/p".toList,
    lastAccessed := 0,
    worktrees := [⟨defaultStr, "/home/u/p".toList, defaultStr⟩],
    settings := none }

def cSt : PMState := { projects := [("p1".toList, cInfo)], dirty := false }

/-- Witness for C5 at the concrete registry state. -/
theorem default_worktree_protected_witness :
    (atMostOneDefault cInfo ∧ pmLookup cSt "p1".toList = some cInfo ∧
      "w2".toList ≠ defaultStr) ∧
    DefaultWorktreeSpec cEnv cInfo cSt "p1".toList cInfo true true
      "w2".toList "T".toList :=
  ⟨⟨by unfold atMostOneDefault; decide, rfl, by decide⟩,
    default_worktree_protected cEnv cInfo cSt "p1".toList cInfo true true
      "w2".toList "T".toList (by unfold atMostOneDefault; decide) rfl
      (by unfold atMostOneDefault; decide) (by decide)⟩

/-- Counterexample for C5 as stated: `updateWorktreeTitle` applied to the
reserved id `"default"` is a registry operation after which the default
entry's stored title is the requested string, not `"default"`. -/
theorem default_title_rename_counterexample :
    ((pmLookup (updateWorktreeTitle cEnv cSt "p1".toList defaultStr
        "custom".toList).1 "p1".toList).map
      (fun inst => (inst.worktrees.filter (fun w => w.id == defaultStr)).map
        (fun w => w.title)))
      = some ["custom".toList] := by
  decide

/-! ### C10: non-absolute project paths are rejected up front -/

/-- The property claimed of `addProject` on a non-absolute path: it fails
with the must-be-absolute error before any filesystem access (no stat,
realpath or persist event) or id derivation, and the table is unchanged. -/
def AbsolutePathSpec (env : PEnv) (st : PMState) (p : Str) (nm : Option Str)
    (now : Nat) : Prop :=
  (addProject env st p nm now).1 = [] ∧
  (addProject env st p nm now).2 = Except.error "Project path must be absolute" ∧
  runAddProject env st p nm now = st

/-- C10: `addProject` with a relative path throws the must-be-absolute error
first and leaves the project table and the persisted store untouched. -/
theorem addProject_requires_absolute (env : PEnv) (st : PMState) (p : Str)
    (nm : Option Str) (now : Nat) (h : strStartsWith p ['/'] = false) :
    AbsolutePathSpec env st p nm now := by
  have hcond : ¬ strStartsWith p ['/'] = true := by simp [h]
  refine ⟨?_, ?_, ?_⟩
  · unfold addProject
    rw [if_pos hcond]
  · unfold addProject
    rw [if_pos hcond]
  · unfold runAddProject addProject
    rw [if_pos hcond]

/-- Witness for C10 at a relative path. -/
theorem addProject_requires_absolute_witness :
    strStartsWith "etc".toList ['/'] = false ∧
    AbsolutePathSpec cEnv cSt "etc".toList none 5 :=
  ⟨by decide, addProject_requires_absolute cEnv cSt "etc".toList none 5 (by decide)⟩

/-! ### C6: idempotent registration -/

theorem find?_append_self (l : List (Str × ProjectInfo)) (pid : Str) (v : ProjectInfo)
    (h : l.find? (fun kv => kv.1 == pid) = none) :
    (l ++ [(pid, v)]).find? (fun kv => kv.1 == pid) = some (pid, v) := by
  induction l with
  | nil => simp [List.find?]
  | cons kv kvs ih =>
    rw [List.find?_cons] at h
    rw [List.cons_append, List.find?_cons]
    by_cases hc : (kv.1 == pid) = true
    · simp [hc] at h
    · have hc2 : (kv.1 == pid) = false := by
        rw [Bool.not_eq_true] at hc
        exact hc
      simp only [hc2] at h ⊢
      exact ih h

theorem pmLookup_pmSet_self (st : PMState) (pid : Str) (v : ProjectInfo) :
    pmLookup (pmSet st pid v) pid = some v := by
  unfold pmSet
  by_cases hany : st.projects.any (fun kv => kv.1 == pid)
  · rw [if_pos hany]
    have hsome : (st.projects.find? (fun kv => kv.1 == pid)).isSome := by
      rw [List.any_eq_true] at hany
      obtain ⟨kv, hkv, hp⟩ := hany
      cases hc : st.projects.find? (fun kv => kv.1 == pid) with
      | none =>
        have := List.find?_eq_none.mp hc kv hkv
        exact absurd hp this
      | some _ => rfl
    unfold pmLookup pmUpdate
    rw [find?_map_update st.projects pid v hsome]
    rfl
  · rw [if_neg hany]
    have hnone : st.projects.find? (fun kv => kv.1 == pid) = none := by
      cases hcase : st.projects.find? (fun kv => kv.1 == pid) with
      | none => rfl
      | some kv =>
        have hmem := List.mem_of_find?_eq_some hcase
        have hp := List.find?_some hcase
        exact absurd (List.any_eq_true.mpr ⟨kv, hmem, hp⟩) hany
    unfold pmLookup
    simp only []
    rw [find?_append_self st.projects pid v hnone]
    rfl

theorem pmUpdate_keys (st : PMState) (pid : Str) (v : ProjectInfo) :
    (pmUpdate st pid v).projects.map (fun kv => kv.1)
      = st.projects.map (fun kv => kv.1) := by
  unfold pmUpdate
  simp only [List.map_map]
  apply List.map_congr_left
  intro kv _
  simp only [Function.comp]
  split <;> rfl

theorem saveProjects_projects (st : PMState) :
    ((saveProjects st).2).projects = st.projects := by
  unfold saveProjects
  by_cases h : st.dirty
  · rw [if_pos h]
  · rw [if_neg h]

theorem count_key_eq_one_of_nodup (l : List (Str × ProjectInfo)) (pid : Str)
    (hnodup : (l.map (fun kv => kv.1)).Nodup)
    (hmem : pid ∈ l.map (fun kv => kv.1)) :
    (l.filter (fun kv => kv.1 == pid)).length = 1 := by
  induction l with
  | nil => simp at hmem
  | cons kv kvs ih =>
    simp only [List.map, List.nodup_cons] at hnodup
    rw [List.filter_cons]
    by_cases hk : (kv.1 == pid) = true
    · rw [if_pos hk]
      have hid : kv.1 = pid := by simpa using hk
      have hrest : kvs.filter (fun kv2 => kv2.1 == pid) = [] := by
        rw [List.filter_eq_nil]
        intro x hx hpx
        have hxid : x.1 = pid := by simpa using hpx
        apply hnodup.1
        rw [hid, ← hxid]
        exact List.mem_map_of_mem (fun kv2 => kv2.1) hx
      rw [hrest]
      rfl
    · rw [if_neg hk]
      have hid : kv.1 ≠ pid := fun he => hk (by simp [he])
      have hmem2 : pid ∈ kvs.map (fun kv2 => kv2.1) := by
        simp only [List.map, List.mem_cons] at hmem
        rcases hmem with hmem | hmem
        · exact absurd hmem.symm hid
        · exact hmem
      exact ih hnodup.2 hmem2

theorem ensureDefault_id (env : PEnv) (info : ProjectInfo) :
    (ensureDefaultWorktree env info).id = info.id := rfl

theorem ensureDefault_atMostOne (env : PEnv) (info : ProjectInfo)
    (h : atMostOneDefault info) :
    atMostOneDefault (ensureDefaultWorktree env info) := by
  have hd := ensureDefault_establishes env info h
  unfold defaultOk at hd
  unfold atMostOneDefault
  rw [hd]
  simp

theorem addExistingInfo_id (env : PEnv) (existing : ProjectInfo)
    (canonicalPath : Str) (name : Option Str) (now : Nat) :
    (addExistingInfo env existing canonicalPath name now).id = existing.id := by
  unfold addExistingInfo
  simp only []
  by_cases hu : addExistingUpdated existing canonicalPath name
  · rw [if_pos hu]
    show (ensureDefaultWorktree env _).id = existing.id
    rw [ensureDefault_id]
    split <;> split <;> rfl
  · rw [if_neg hu]
    show (ite _ _ _ : ProjectInfo).id = existing.id
    split <;> split <;> rfl

theorem addExistingInfo_lastAccessed (env : PEnv) (existing : ProjectInfo)
    (canonicalPath : Str) (name : Option Str) (now : Nat) :
    (addExistingInfo env existing canonicalPath name now).lastAccessed = now := rfl

/-- The worktree list of the updated record: either normalized from a record
with the existing worktrees, or exactly the existing worktrees. -/
theorem addExistingInfo_worktrees_cases (env : PEnv) (existing : ProjectInfo)
    (canonicalPath : Str) (name : Option Str) (now : Nat) :
    (∃ i2 : ProjectInfo, i2.worktrees = existing.worktrees ∧
      (addExistingInfo env existing canonicalPath name now).worktrees
        = (ensureDefaultWorktree env i2).worktrees) ∨
    (addExistingInfo env existing canonicalPath name now).worktrees
      = existing.worktrees := by
  unfold addExistingInfo
  simp only []
  by_cases hu : addExistingUpdated existing canonicalPath name
  · rw [if_pos hu]
    refine Or.inl ⟨_, ?_, rfl⟩
    split <;> split <;> rfl
  · rw [if_neg hu]
    refine Or.inr ?_
    show (ite _ _ _ : ProjectInfo).worktrees = existing.worktrees
    split <;> split <;> rfl

theorem addExistingInfo_atMostOne (env : PEnv) (existing : ProjectInfo)
    (canonicalPath : Str) (name : Option Str) (now : Nat)
    (h : atMostOneDefault existing) :
    atMostOneDefault (addExistingInfo env existing canonicalPath name now) := by
  rcases addExistingInfo_worktrees_cases env existing canonicalPath name now with
    ⟨i2, hw, he⟩ | he
  · have hi2 : atMostOneDefault i2 := by
      unfold atMostOneDefault at h ⊢
      rw [hw]
      exact h
    have hd := ensureDefault_establishes env i2 hi2
    unfold defaultOk at hd
    unfold atMostOneDefault
    rw [he, hd]
    simp
  · unfold atMostOneDefault at h ⊢
    rw [he]
    exact h

theorem addNewInfo_atMostOne (env : PEnv) (canonicalPath : Str)
    (name : Option Str) (now : Nat) :
    atMostOneDefault (addNewInfo env canonicalPath name now) := by
  unfold atMostOneDefault addNewInfo
  simp

theorem pmLookup_setDirty (st : PMState) (d : Bool) (pid : Str) :
    pmLookup { st with dirty := d } pid = pmLookup st pid := rfl

theorem pmLookup_saveProjects (st : PMState) (pid : Str) :
    pmLookup (saveProjects st).2 pid = pmLookup st pid := by
  unfold pmLookup
  rw [saveProjects_projects]

theorem record_of_pmLookup_some {st : PMState} {pid : Str} {v : ProjectInfo}
    (h : pmLookup st pid = some v) :
    ∃ kv ∈ st.projects, kv.1 = pid ∧ kv.2 = v := by
  unfold pmLookup at h
  cases hc : st.projects.find? (fun kv => kv.1 == pid) with
  | none => rw [hc] at h; simp at h
  | some kv =>
    rw [hc] at h
    refine ⟨kv, List.mem_of_find?_eq_some hc, ?_, ?_⟩
    · simpa using List.find?_some hc
    · simpa using h

theorem mem_keys_of_pmLookup_some {st : PMState} {pid : Str} {v : ProjectInfo}
    (h : pmLookup st pid = some v) :
    pid ∈ st.projects.map (fun kv => kv.1) := by
  obtain ⟨kv, hmem, hk1, _⟩ := record_of_pmLookup_some h
  rw [← hk1]
  exact List.mem_map_of_mem (fun kv => kv.1) hmem

theorem find?_eq_none_of_pmLookup_none {st : PMState} {pid : Str}
    (h : pmLookup st pid = none) :
    st.projects.find? (fun kv => kv.1 == pid) = none := by
  unfold pmLookup at h
  cases hc : st.projects.find? (fun kv => kv.1 == pid) with
  | none => rfl
  | some kv => rw [hc] at h; simp at h

theorem any_eq_false_of_find?_none {l : List (Str × ProjectInfo)} {pid : Str}
    (h : l.find? (fun kv => kv.1 == pid) = none) :
    l.any (fun kv => kv.1 == pid) = false := by
  rw [Bool.eq_false_iff]
  intro hany
  rw [List.any_eq_true] at hany
  obtain ⟨kv, hmem, hp⟩ := hany
  exact absurd hp (List.find?_eq_none.mp h kv hmem)

theorem pmSet_projects_absent (st : PMState) (pid : Str) (v : ProjectInfo)
    (h : st.projects.find? (fun kv => kv.1 == pid) = none) :
    (pmSet st pid v).projects = st.projects ++ [(pid, v)] := by
  unfold pmSet
  rw [if_neg (by simp [any_eq_false_of_find?_none h])]

theorem notin_keys_of_find?_none {l : List (Str × ProjectInfo)} {pid : Str}
    (h : l.find? (fun kv => kv.1 == pid) = none) :
    pid ∉ l.map (fun kv => kv.1) := by
  intro hmem
  rw [List.mem_map] at hmem
  obtain ⟨kv, hkv, hid⟩ := hmem
  exact absurd (by simp [hid]) (List.find?_eq_none.mp h kv hkv)

theorem nodup_concat_key {l : List (Str × ProjectInfo)} {pid : Str}
    {v : ProjectInfo} (h : (l.map (fun kv => kv.1)).Nodup)
    (hn : pid ∉ l.map (fun kv => kv.1)) :
    ((l ++ [(pid, v)]).map (fun kv => kv.1)).Nodup := by
  rw [List.map_append]
  rw [List.nodup_append]
  refine ⟨h, by simp, ?_⟩
  intro x hx hx2
  simp only [List.map_cons, List.map_nil, List.mem_singleton] at hx2
  rw [hx2] at hx
  exact hn hx

/-- When the project id is already registered, `addProject` updates that
record in place. -/
theorem addProject_update_branch (env : PEnv) (st : PMState) (p : Str)
    (nm : Option Str) (now : Nat) (existing : ProjectInfo)
    (habs : strStartsWith p ['/'] = true)
    (hstat : env.statIsDir (normalizePath env p) = some true)
    (hlook : pmLookup st (getGitProjectId env (addCanonical env p))
      = some existing) :
    (addProject env st p nm now).2 = Except.ok
      ((saveProjects { pmUpdate st (getGitProjectId env (addCanonical env p))
          (addExistingInfo env existing (addCanonical env p) nm now) with
          dirty := st.dirty ||
            decide (addExistingUpdated existing (addCanonical env p) nm) }).2,
        addExistingInfo env existing (addCanonical env p) nm now) := by
  unfold addProject
  rw [if_neg (by simp [habs])]
  simp only [hstat, hlook]

/-- When the project id is new, `addProject` appends a fresh normalized
record. -/
theorem addProject_insert_branch (env : PEnv) (st : PMState) (p : Str)
    (nm : Option Str) (now : Nat)
    (habs : strStartsWith p ['/'] = true)
    (hstat : env.statIsDir (normalizePath env p) = some true)
    (hlook : pmLookup st (getGitProjectId env (addCanonical env p)) = none) :
    (addProject env st p nm now).2 = Except.ok
      ((saveProjects { pmSet st (getGitProjectId env (addCanonical env p))
          (ensureDefaultWorktree env (addNewInfo env (addCanonical env p) nm now))
          with dirty := true }).2,
        ensureDefaultWorktree env (addNewInfo env (addCanonical env p) nm now)) := by
  unfold addProject
  rw [if_neg (by simp [habs])]
  simp only [hstat, hlook]

theorem pmUpdate_length (st : PMState) (pid : Str) (v : ProjectInfo) :
    (pmUpdate st pid v).projects.length = st.projects.length := by
  unfold pmUpdate
  simp

theorem ensureDefault_lastAccessed (env : PEnv) (info : ProjectInfo) :
    (ensureDefaultWorktree env info).lastAccessed = info.lastAccessed := rfl

/-- Well-formedness of the project table: distinct keys, each record stores
its own key as id, and each record has at most one `"default"` worktree. -/
def pmWellFormed (st : PMState) : Prop :=
  (st.projects.map (fun kv => kv.1)).Nodup ∧
  ∀ kv ∈ st.projects, kv.2.id = kv.1 ∧ atMostOneDefault kv.2

theorem pmWellFormed_congr {stA stB : PMState}
    (h : stA.projects = stB.projects) (hw : pmWellFormed stA) :
    pmWellFormed stB := by
  constructor
  · rw [← h]
    exact hw.1
  · intro kv hkv
    rw [← h] at hkv
    exact hw.2 kv hkv

theorem pmWellFormed_pmUpdate (st : PMState) (pid : Str) (v : ProjectInfo)
    (hwf : pmWellFormed st) (hv : v.id = pid) (hm : atMostOneDefault v) :
    pmWellFormed (pmUpdate st pid v) := by
  constructor
  · rw [pmUpdate_keys]
    exact hwf.1
  · intro kv hkv
    unfold pmUpdate at hkv
    simp only [List.mem_map] at hkv
    obtain ⟨kv0, hkv0, heq⟩ := hkv
    by_cases hk : (kv0.1 == pid) = true
    · rw [if_pos hk] at heq
      rw [← heq]
      refine ⟨?_, hm⟩
      show v.id = kv0.1
      rw [hv]
      exact ((by simpa using hk : kv0.1 = pid)).symm
    · rw [if_neg hk] at heq
      rw [← heq]
      exact hwf.2 kv0 hkv0

theorem pmWellFormed_concat (st : PMState) (pid : Str) (v : ProjectInfo)
    (hwf : pmWellFormed st)
    (hfind : st.projects.find? (fun kv => kv.1 == pid) = none)
    (hv : v.id = pid) (hm : atMostOneDefault v) :
    pmWellFormed { st with projects := st.projects ++ [(pid, v)] } := by
  constructor
  · exact nodup_concat_key hwf.1 (notin_keys_of_find?_none hfind)
  · intro kv hkv
    have hmem : kv ∈ st.projects ++ [(pid, v)] := hkv
    rw [List.mem_append] at hmem
    rcases hmem with hmem | hmem
    · exact hwf.2 kv hmem
    · simp only [List.mem_singleton] at hmem
      rw [hmem]
      exact ⟨hv, hm⟩

/-- Facts about any successful `addProject` call from a well-formed table. -/
theorem addProject_ok_facts (env : PEnv) (st : PMState) (p : Str)
    (nm : Option Str) (now : Nat) (st1 : PMState) (info : ProjectInfo)
    (hwf : pmWellFormed st)
    (h1 : (addProject env st p nm now).2 = Except.ok (st1, info)) :
    strStartsWith p ['/'] = true ∧
    env.statIsDir (normalizePath env p) = some true ∧
    info.id = getGitProjectId env (addCanonical env p) ∧
    pmLookup st1 (getGitProjectId env (addCanonical env p)) = some info ∧
    atMostOneDefault info ∧
    info.lastAccessed = now ∧
    pmWellFormed st1 ∧
    ((pmLookup st (getGitProjectId env (addCanonical env p))).isSome →
      st1.projects.length = st.projects.length) := by
  by_cases habs : strStartsWith p ['/'] = true
  swap
  · unfold addProject at h1
    rw [if_pos (by simpa using habs)] at h1
    simp at h1
  cases hstat : env.statIsDir (normalizePath env p) with
  | none =>
    unfold addProject at h1
    rw [if_neg (by simp [habs])] at h1
    simp only [hstat] at h1
    simp at h1
  | some b =>
    cases b with
    | false =>
      unfold addProject at h1
      rw [if_neg (by simp [habs])] at h1
      simp only [hstat] at h1
      simp at h1
    | true =>
      refine ⟨habs, rfl, ?_⟩
      cases hlook : pmLookup st (getGitProjectId env (addCanonical env p)) with
      | some existing =>
        rw [addProject_update_branch env st p nm now existing habs hstat hlook]
          at h1
        rw [Except.ok.injEq, Prod.mk.injEq] at h1
        obtain ⟨hst1, hinfo⟩ := h1
        obtain ⟨kv, hmem, hk1, hk2⟩ := record_of_pmLookup_some hlook
        have hexid : existing.id = getGitProjectId env (addCanonical env p) := by
          rw [← hk2, (hwf.2 kv hmem).1, hk1]
        refine ⟨?_, ?_, ?_, ?_, ?_, ?_⟩
        · rw [← hinfo, addExistingInfo_id, hexid]
        · rw [← hst1, ← hinfo]
          rw [pmLookup_saveProjects, pmLookup_setDirty]
          exact pmLookup_pmUpdate_self st _ _ existing hlook
        · rw [← hinfo]
          refine addExistingInfo_atMostOne env existing _ nm now ?_
          rw [← hk2]
          exact (hwf.2 kv hmem).2
        · rw [← hinfo, addExistingInfo_lastAccessed]
        · have hwfA := pmWellFormed_pmUpdate st
            (getGitProjectId env (addCanonical env p))
            (addExistingInfo env existing (addCanonical env p) nm now) hwf
            (by rw [addExistingInfo_id, hexid])
            (addExistingInfo_atMostOne env existing _ nm now
              (by rw [← hk2]; exact (hwf.2 kv hmem).2))
          refine pmWellFormed_congr ?_ hwfA
          rw [← hst1, saveProjects_projects]
        · intro _
          rw [← hst1, saveProjects_projects]
          exact pmUpdate_length st _ _
      | none =>
        rw [addProject_insert_branch env st p nm now habs hstat hlook] at h1
        rw [Except.ok.injEq, Prod.mk.injEq] at h1
        obtain ⟨hst1, hinfo⟩ := h1
        have hfnone := find?_eq_none_of_pmLookup_none hlook
        refine ⟨?_, ?_, ?_, ?_, ?_, ?_⟩
        · rw [← hinfo, ensureDefault_id]
          rfl
        · rw [← hst1, ← hinfo]
          rw [pmLookup_saveProjects, pmLookup_setDirty]
          exact pmLookup_pmSet_self st _ _
        · rw [← hinfo]
          exact ensureDefault_atMostOne env _ (addNewInfo_atMostOne env _ nm now)
        · rw [← hinfo, ensureDefault_lastAccessed]
          rfl
        · have hwfC := pmWellFormed_concat st
            (getGitProjectId env (addCanonical env p))
            (ensureDefaultWorktree env (addNewInfo env (addCanonical env p) nm now))
            hwf hfnone rfl
            (ensureDefault_atMostOne env _ (addNewInfo_atMostOne env _ nm now))
          refine pmWellFormed_congr ?_ hwfC
          rw [← hst1, saveProjects_projects]
          exact (pmSet_projects_absent st _ _ hfnone).symm
        · intro hs
          simp at hs

/-- What a second registration of the same path yields, given the first
call's outputs `st1`, `info`: success with the same deterministic id (the
hash of the canonicalized absolute path), no new record (same table size,
exactly one record under that id, which the lookup returns updated), a
touched last-accessed stamp, and no duplicated `"default"` worktree entry. -/
def IdempotentAddSpec (env : PEnv) (p : Str) (nm2 : Option Str) (now2 : Nat)
    (st1 : PMState) (info : ProjectInfo) : Prop :=
  ∃ st2 info2,
    (addProject env st1 p nm2 now2).2 = Except.ok (st2, info2) ∧
    info2.id = info.id ∧
    info.id = getGitProjectId env (addCanonical env p) ∧
    st2.projects.length = st1.projects.length ∧
    (st2.projects.filter (fun kv => kv.1 == info.id)).length = 1 ∧
    pmLookup st2 info.id = some info2 ∧
    info2.lastAccessed = now2 ∧
    atMostOneDefault info2

/-- C6: project registration is idempotent. From a well-formed table, if
`addProject` succeeds once, registering the same path again succeeds, both
calls return the deterministic id `getGitProjectId` of the canonicalized
absolute path, the second call leaves exactly one record for that id
(same table size, the stored record is the returned one with last-accessed
set to the second call's clock), and the returned record still has at most
one `"default"` worktree entry. -/
theorem addProject_idempotent (env : PEnv) (st : PMState) (p : Str)
    (nm nm2 : Option Str) (now now2 : Nat) (st1 : PMState) (info : ProjectInfo)
    (hwf : pmWellFormed st)
    (h1 : (addProject env st p nm now).2 = Except.ok (st1, info)) :
    IdempotentAddSpec env p nm2 now2 st1 info := by
  obtain ⟨habs, hstat, hid, hlook1, hone, hlast, hwf1, hlen1⟩ :=
    addProject_ok_facts env st p nm now st1 info hwf h1
  have h2 := addProject_update_branch env st1 p nm2 now2 info habs hstat hlook1
  obtain ⟨habs2, hstat2, hid2, hlook2, hone2, hlast2, hwf2, hlen2⟩ :=
    addProject_ok_facts env st1 p nm2 now2 _ _ hwf1 h2
  refine ⟨_, _, h2, ?_, hid, ?_, ?_, ?_, hlast2, hone2⟩
  · rw [hid2]
    exact hid.symm
  · exact hlen2 (by rw [hlook1]; rfl)
  · rw [hid]
    exact count_key_eq_one_of_nodup _ _ hwf2.1 (mem_keys_of_pmLookup_some hlook2)
  · rw [hid]
    exact hlook2

/-- The empty registry used by the registration witness. -/
def wSt : PMState := { projects := [], dirty := false }

/-- The outcome of the concrete first registration used by the witness. -/
def wPair : PMState × ProjectInfo :=
  match (addProject cEnv wSt "/proj".toList none 1).2 with
  | Except.ok pr => pr
  | Except.error _ => (wSt, cInfo)

/-- Witness for C6: a concrete successful registration into the empty
registry, then the second registration of the same path. -/
theorem addProject_idempotent_witness :
    (pmWellFormed wSt ∧
      (addProject cEnv wSt "/proj".toList none 1).2
        = Except.ok (wPair.1, wPair.2)) ∧
    IdempotentAddSpec cEnv "/proj".toList none 2 wPair.1 wPair.2 :=
  ⟨⟨by unfold pmWellFormed; simp [wSt], by rfl⟩,
    addProject_idempotent cEnv wSt "/proj".toList none none 1 2 wPair.1 wPair.2
      (by unfold pmWellFormed; simp [wSt]) (by rfl)⟩

/-! ### C8: the title-overwrite policy -/

/-- The spec's notion of a stored title that "looks like a generated slug":
it equals the entry's id, its full path, the path's leaf name, or its own
slugified form, or contains a path separator or underscore. -/
def specCurrentLooksSluggy (current : Str) (w : WorktreeMetadata) : Prop :=
  current = w.id ∨ current = w.path ∨ current = basename w.path ∨
    current = slugify current ∨ hasSlashOrUnderscore current

/-- The spec's notion for the incoming suggested title: it trims to empty,
equals its own slugified form, or contains a path separator or underscore. -/
def specIncomingLooksSluggy (t : Str) : Prop :=
  strTrim t = [] ∨ strTrim t = slugify (strTrim t) ∨
    hasSlashOrUnderscore (strTrim t)

instance (current : Str) (w : WorktreeMetadata) :
    Decidable (specCurrentLooksSluggy current w) := by
  unfold specCurrentLooksSluggy
  exact inferInstance

instance (t : Str) : Decidable (specIncomingLooksSluggy t) := by
  unfold specIncomingLooksSluggy
  exact inferInstance

/-- The overwrite decision of the source agrees with the spec's condition
whenever the stored title is non-blank. -/
theorem titleAfterEnsure_spec (w : WorktreeMetadata) (t : Str)
    (hcur : strTrim w.title ≠ []) :
    titleAfterEnsure w t =
      if specCurrentLooksSluggy (strTrim w.title) w ∧ ¬ specIncomingLooksSluggy t
      then strTrim t else w.title := by
  unfold titleAfterEnsure
  simp only []
  rw [if_neg hcur]
  by_cases h : specCurrentLooksSluggy (strTrim w.title) w ∧
      ¬ specIncomingLooksSluggy t
  · rw [if_pos h]
    exact if_pos (Or.inr ⟨Or.inr h.1, h.2⟩)
  · rw [if_neg h]
    refine if_neg ?_
    intro hc
    rcases hc with hc | ⟨hc1, hc2⟩
    · exact hcur hc
    · rcases hc1 with hc1 | hc1
      · exact hcur hc1
      · exact h ⟨hc1, hc2⟩

/-- C8: the title-overwrite policy. When `ensureWorktreeMetadata` matches an
existing entry whose stored title is non-blank and receives a differing
non-empty suggested title, the returned entry keeps the entry's id, carries
the canonicalized path, and its title is the trimmed incoming title exactly
when the stored title looks like a generated slug (relative to the
path-refreshed entry) and the incoming title does not; otherwise the stored
title is kept, so a user-chosen friendly title is never replaced by a
machine-derived one. -/
theorem ensure_title_policy (env : PEnv) (st : PMState) (pid wpath t : Str)
    (inst : ProjectInfo) (existing : WorktreeMetadata)
    (hlook : pmLookup st pid = some inst)
    (hfind : (ensureDefaultWorktree env inst).worktrees.find?
      (fun w => canonicalizePath env w.path == canonicalizePath env wpath)
      = some existing)
    (hcur : strTrim existing.title ≠ [])
    (hgt : t ≠ []) (hgne : existing.title ≠ t) :
    ∃ st' : PMState,
      ensureWorktreeMetadata env st pid wpath (some t) = (st',
        some (WorktreeMetadata.mk existing.id (canonicalizePath env wpath)
          (if specCurrentLooksSluggy (strTrim existing.title)
                (WorktreeMetadata.mk existing.id (canonicalizePath env wpath)
                  existing.title)
              ∧ ¬ specIncomingLooksSluggy t
           then strTrim t else existing.title))) := by
  have hsnd : (ensureWorktreeMetadata env st pid wpath (some t)).2
      = some (WorktreeMetadata.mk existing.id (canonicalizePath env wpath)
          (if specCurrentLooksSluggy (strTrim existing.title)
                (WorktreeMetadata.mk existing.id (canonicalizePath env wpath)
                  existing.title)
              ∧ ¬ specIncomingLooksSluggy t
           then strTrim t else existing.title)) := by
    unfold ensureWorktreeMetadata
    simp only [hlook, hfind]
    rw [Option.some.injEq]
    refine congrArg (WorktreeMetadata.mk existing.id (canonicalizePath env wpath)) ?_
    rw [if_pos (⟨hgt, hgne⟩ : _ ∧ _)]
    rw [titleAfterEnsure_spec
      (WorktreeMetadata.mk existing.id (canonicalizePath env wpath) existing.title)
      t hcur]
  exact ⟨(ensureWorktreeMetadata env st pid wpath (some t)).1, by rw [← hsnd]⟩

/-- Project and registry used by the title-policy witness: one extra
worktree at `/w` whose title `w` is the path's leaf name. -/
def w8Info : ProjectInfo :=
  { id := "p1".toList, name := "P".toList, path := "/home/u/p".toList,
    lastAccessed := 0,
    worktrees := [⟨defaultStr, "/home/u/p".toList, defaultStr⟩,
      ⟨"w1".toList, "/w".toList, "w".toList⟩],
    settings := none }

def w8St : PMState := { projects := [("p1".toList, w8Info)], dirty := false }

/-- Witness for C8 at a sluggy stored title and a friendly incoming title. -/
theorem ensure_title_policy_witness :
    (pmLookup w8St "p1".toList = some w8Info ∧
      (ensureDefaultWorktree cEnv w8Info).worktrees.find?
        (fun w => canonicalizePath cEnv w.path
          == canonicalizePath cEnv "/w".toList)
        = some ⟨"w1".toList, "/w".toList, "w".toList⟩ ∧
      strTrim ("w".toList : Str) ≠ [] ∧ ("My Feature".toList : Str) ≠ [] ∧
      ("w".toList : Str) ≠ "My Feature".toList) ∧
    ∃ st' : PMState,
      ensureWorktreeMetadata cEnv w8St "p1".toList "/w".toList
          (some "My Feature".toList) = (st',
        some (WorktreeMetadata.mk "w1".toList
          (canonicalizePath cEnv "/w".toList)
          (if specCurrentLooksSluggy (strTrim ("w".toList : Str))
                (WorktreeMetadata.mk "w1".toList
                  (canonicalizePath cEnv "/w".toList) "w".toList)
              ∧ ¬ specIncomingLooksSluggy "My Feature".toList
           then strTrim "My Feature".toList else "w".toList))) :=
  ⟨⟨by decide, by decide, by decide, by decide, by decide⟩,
    ensure_title_policy cEnv w8St "p1".toList "/w".toList "My Feature".toList
      w8Info ⟨"w1".toList, "/w".toList, "w".toList⟩
      (by decide) (by decide) (by decide) (by decide) (by decide)⟩

/-! ### C7: orphan cleanup after a listing run -/

/-- `updateFirst` preserves the id list when the replacement keeps the id of
the first match. -/
theorem updateFirst_map_id (p : WorktreeMetadata → Bool)
    (f : WorktreeMetadata → WorktreeMetadata) (ws : List WorktreeMetadata)
    (h : ∀ w0, ws.find? p = some w0 → (f w0).id = w0.id) :
    (updateFirst p f ws).map (fun w => w.id) = ws.map (fun w => w.id) := by
  induction ws with
  | nil => rfl
  | cons a as ih =>
    unfold updateFirst
    by_cases hp : p a
    · rw [if_pos hp]
      have ha := h a (List.find?_cons_of_pos _ hp)
      rw [List.map_cons, List.map_cons, ha]
    · rw [if_neg hp]
      rw [List.map_cons, List.map_cons, ih]
      intro w0 hw0
      exact h w0 (by rw [List.find?_cons_of_neg _ hp]; exact hw0)

/-- Normalization either keeps the id list or appends the `"default"` id. -/
theorem ensureDefault_ids (env : PEnv) (info : ProjectInfo) :
    (ensureDefaultWorktree env info).worktrees.map (fun w => w.id)
        = info.worktrees.map (fun w => w.id) ∨
    (ensureDefaultWorktree env info).worktrees.map (fun w => w.id)
        = info.worktrees.map (fun w => w.id) ++ [defaultStr] := by
  unfold ensureDefaultWorktree
  simp only []
  set npp := canonicalizePath env info.path with hnpp
  set f : WorktreeMetadata → WorktreeMetadata := fun w =>
    { w with
      path := canonicalizePath env (if w.path = [] then npp else w.path),
      title := if w.id == defaultStr then defaultStr
               else if w.title = [] then w.id else w.title } with hf
  by_cases hfind : (info.worktrees.find? (fun w => w.id == defaultStr)).isSome
  · rw [if_pos hfind]
    left
    rw [List.map_map]
    have hcomp : ((fun (w : WorktreeMetadata) => w.id) ∘ f)
        = fun (w : WorktreeMetadata) => w.id := rfl
    rw [hcomp]
    exact updateFirst_map_id _ _ _ (fun w0 _ => rfl)
  · rw [if_neg hfind]
    right
    rw [List.map_map]
    have hcomp : ((fun (w : WorktreeMetadata) => w.id) ∘ f)
        = fun (w : WorktreeMetadata) => w.id := rfl
    rw [hcomp]
    rw [List.map_append]
    rfl

theorem ensureDefault_mem_id (env : PEnv) (info : ProjectInfo) (wid : Str)
    (h : wid ∈ info.worktrees.map (fun w => w.id)) :
    wid ∈ (ensureDefaultWorktree env info).worktrees.map (fun w => w.id) := by
  rcases ensureDefault_ids env info with he | he <;> rw [he]
  · exact h
  · exact List.mem_append_left _ h

theorem ensureDefault_mem_id_rev (env : PEnv) (info : ProjectInfo) (wid : Str)
    (hne : wid ≠ defaultStr)
    (h : wid ∈ (ensureDefaultWorktree env info).worktrees.map (fun w => w.id)) :
    wid ∈ info.worktrees.map (fun w => w.id) := by
  rcases ensureDefault_ids env info with he | he
  · rw [he] at h
    exact h
  · rw [he, List.mem_append] at h
    rcases h with h | h
    · exact h
    · simp only [List.mem_singleton] at h
      exact absurd h hne

/-- No worktree with the given id is stored for the project. -/
def widAbsent (st : PMState) (pid wid : Str) : Prop :=
  ∀ info, pmLookup st pid = some info → ∀ w ∈ info.worktrees, w.id ≠ wid

/-- Some worktree with the given id is stored for the project. -/
def widPresent (st : PMState) (pid wid : Str) : Prop :=
  ∃ info, pmLookup st pid = some info ∧
    wid ∈ info.worktrees.map (fun w => w.id)

/-- Removing a non-default id leaves the project with no worktree of that
id. -/
theorem removeWorktree_absent (env : PEnv) (s : PMState) (pid wid : Str)
    (hw : wid ≠ defaultStr) :
    widAbsent (removeWorktreeMetadata env s pid wid).1 pid wid := by
  unfold removeWorktreeMetadata
  cases hlook : pmLookup s pid with
  | none =>
    simp only [hlook]
    intro info hinfo w hwmem
    rw [hlook] at hinfo
    cases hinfo
  | some inst =>
    simp only [hlook]
    rw [if_neg (by simp [hw])]
    intro info2 hinfo2 w hwmem
    have hself := pmLookup_pmUpdate_self s pid
      { ensureDefaultWorktree env inst with
        worktrees := (ensureDefaultWorktree env inst).worktrees.filter
          (fun w => ¬ w.id == wid) } inst hlook
    rw [pmLookup_setDirty, hself, Option.some.injEq] at hinfo2
    rw [← hinfo2] at hwmem
    have hmf := List.mem_filter.mp hwmem
    intro he
    have h2 := hmf.2
    rw [he] at h2
    simp at h2

/-- Removing any id cannot resurrect an absent non-default id. -/
theorem removeWorktree_preserves_absent (env : PEnv) (s : PMState)
    (pid wid wid2 : Str) (hw : wid ≠ defaultStr)
    (ha : widAbsent s pid wid) :
    widAbsent (removeWorktreeMetadata env s pid wid2).1 pid wid := by
  unfold removeWorktreeMetadata
  cases hlook : pmLookup s pid with
  | none =>
    simp only [hlook]
    exact ha
  | some inst =>
    simp only [hlook]
    have hens : ∀ w ∈ (ensureDefaultWorktree env inst).worktrees, w.id ≠ wid := by
      intro w hwmem he
      have hmem : wid ∈ (ensureDefaultWorktree env inst).worktrees.map
          (fun w => w.id) := by
        rw [← he]
        exact List.mem_map_of_mem _ hwmem
      have h2 := ensureDefault_mem_id_rev env inst wid hw hmem
      rw [List.mem_map] at h2
      obtain ⟨w0, hw0, he0⟩ := h2
      exact ha inst hlook w0 hw0 he0
    by_cases hd : (wid2 == defaultStr) = true
    · rw [if_pos hd]
      intro info2 hinfo2 w hwmem
      have hself := pmLookup_pmUpdate_self s pid (ensureDefaultWorktree env inst)
        inst hlook
      rw [hself, Option.some.injEq] at hinfo2
      rw [← hinfo2] at hwmem
      exact hens w hwmem
    · rw [if_neg hd]
      intro info2 hinfo2 w hwmem
      have hself := pmLookup_pmUpdate_self s pid
        { ensureDefaultWorktree env inst with
          worktrees := (ensureDefaultWorktree env inst).worktrees.filter
            (fun w => ¬ w.id == wid2) } inst hlook
      rw [pmLookup_setDirty, hself, Option.some.injEq] at hinfo2
      rw [← hinfo2] at hwmem
      exact hens w (List.mem_filter.mp hwmem).1

/-- Removing a different id keeps a present non-default id present. -/
theorem removeWorktree_preserves_present (env : PEnv) (s : PMState)
    (pid wid wid2 : Str) (hne : wid ≠ wid2) (hp : widPresent s pid wid) :
    widPresent (removeWorktreeMetadata env s pid wid2).1 pid wid := by
  obtain ⟨inst, hlook, hmem⟩ := hp
  unfold removeWorktreeMetadata
  simp only [hlook]
  have hens := ensureDefault_mem_id env inst wid hmem
  by_cases hd : (wid2 == defaultStr) = true
  · rw [if_pos hd]
    exact ⟨_, pmLookup_pmUpdate_self s pid _ inst hlook, hens⟩
  · rw [if_neg hd]
    refine ⟨{ ensureDefaultWorktree env inst with
      worktrees := (ensureDefaultWorktree env inst).worktrees.filter
        (fun w => ¬ w.id == wid2) }, ?_, ?_⟩
    · rw [pmLookup_setDirty]
      exact pmLookup_pmUpdate_self s pid _ inst hlook
    · rw [List.mem_map] at hens ⊢
      obtain ⟨w0, hw0, he0⟩ := hens
      refine ⟨w0, ?_, he0⟩
      rw [List.mem_filter]
      refine ⟨hw0, ?_⟩
      have hne2 : w0.id ≠ wid2 := by
        rw [he0]
        exact hne
      simp [hne2]

theorem foldl_preserve {α β : Type} (P : α → Prop) (f : α → β → α)
    (l : List β) (hf : ∀ a b, b ∈ l → P a → P (f a b)) :
    ∀ a, P a → P (l.foldl f a) := by
  induction l with
  | nil => exact fun a ha => ha
  | cons b bs ih =>
    intro a ha
    rw [List.foldl_cons]
    exact ih (fun a2 b2 hb2 => hf a2 b2 (List.mem_cons_of_mem _ hb2)) (f a b)
      (hf a b (List.mem_cons_self _ _) ha)

theorem foldl_establish_preserve {α β : Type} (P : α → Prop) (f : α → β → α)
    (l : List β) (b : β) (hb : b ∈ l)
    (hest : ∀ a, P (f a b))
    (hpres : ∀ a b2, b2 ∈ l → P a → P (f a b2)) (a : α) :
    P (l.foldl f a) := by
  obtain ⟨s, t, rfl⟩ := List.append_of_mem hb
  rw [List.foldl_append, List.foldl_cons]
  exact foldl_preserve P f t
    (fun a2 b2 hb2 => hpres a2 b2 (by simp [hb2])) _ (hest _)

theorem foldlM_except_preserve {α β : Type} (P : α → Prop)
    (f : α → β → Except String α) (l : List β)
    (hf : ∀ a b a2, b ∈ l → P a → f a b = Except.ok a2 → P a2) :
    ∀ a res, P a → l.foldlM f a = Except.ok res → P res := by
  induction l with
  | nil =>
    intro a res ha h
    have h2 : Except.ok a = Except.ok res := h
    rw [Except.ok.injEq] at h2
    rw [← h2]
    exact ha
  | cons b bs ih =>
    intro a res ha h
    have h2 : (f a b >>= fun a2 => bs.foldlM f a2) = Except.ok res := h
    cases hfa : f a b with
    | error e =>
      rw [hfa] at h2
      have h3 : (Except.error e : Except String α) = Except.ok res := h2
      cases h3
    | ok a2 =>
      rw [hfa] at h2
      have h3 : bs.foldlM f a2 = Except.ok res := h2
      exact ih (fun a3 b3 a4 hb3 => hf a3 b3 a4 (List.mem_cons_of_mem _ hb3))
        a2 res (hf a b a2 (List.mem_cons_self _ _) ha hfa) h3

/-- Distinct-id lists determine elements by id. -/
theorem eq_of_nodup_ids {l : List WorktreeMetadata}
    (h : (l.map (fun w => w.id)).Nodup) {a b : WorktreeMetadata}
    (ha : a ∈ l) (hb : b ∈ l) (hid : a.id = b.id) : a = b := by
  induction l with
  | nil => cases ha
  | cons c cs ih =>
    rw [List.map_cons, List.nodup_cons] at h
    rcases List.mem_cons.mp ha with ha1 | ha1 <;>
      rcases List.mem_cons.mp hb with hb1 | hb1
    · rw [ha1, hb1]
    · exfalso
      apply h.1
      rw [ha1] at hid
      rw [hid]
      exact List.mem_map_of_mem _ hb1
    · exfalso
      apply h.1
      rw [hb1] at hid
      rw [← hid]
      exact List.mem_map_of_mem _ ha1
    · exact ih h.2 ha1 hb1

theorem mem_updateFirst_map_id {p : WorktreeMetadata → Bool}
    {f : WorktreeMetadata → WorktreeMetadata} {ws : List WorktreeMetadata}
    {wid : Str} (h : ∀ w0, ws.find? p = some w0 → (f w0).id = w0.id)
    (hm : wid ∈ ws.map (fun w => w.id)) :
    wid ∈ (updateFirst p f ws).map (fun w => w.id) := by
  rw [updateFirst_map_id p f ws h]
  exact hm

theorem widPresent_pmUpdate_setDirty (s : PMState) (pid wid : Str)
    (v : ProjectInfo) (d : Bool) (inst : ProjectInfo)
    (hlook : pmLookup s pid = some inst)
    (hm : wid ∈ v.worktrees.map (fun w => w.id)) :
    widPresent { pmUpdate s pid v with dirty := d } pid wid :=
  ⟨v, by rw [pmLookup_setDirty]; exact pmLookup_pmUpdate_self s pid v inst hlook,
    hm⟩

/-- The find-or-create pass never loses an existing worktree id. -/
theorem ensure_preserves_present (env : PEnv) (s : PMState) (pid path2 : Str)
    (title : Option Str) (wid : Str) (hp : widPresent s pid wid) :
    widPresent (ensureWorktreeMetadata env s pid path2 title).1 pid wid := by
  obtain ⟨inst, hlook, hmem⟩ := hp
  unfold ensureWorktreeMetadata
  simp only [hlook]
  have hens := ensureDefault_mem_id env inst wid hmem
  cases hfind : (ensureDefaultWorktree env inst).worktrees.find?
      (fun w => canonicalizePath env w.path == canonicalizePath env path2) with
  | some existing =>
    simp only [hfind]
    apply widPresent_pmUpdate_setDirty s pid wid _ _ inst hlook
    refine mem_updateFirst_map_id ?_ hens
    intro w0 hw0
    rw [hfind, Option.some.injEq] at hw0
    rw [← hw0]
  | none =>
    simp only [hfind]
    apply widPresent_pmUpdate_setDirty s pid wid _ _ inst hlook
    rw [List.map_append]
    exact List.mem_append_left _ hens

/-- The per-entry loop body never loses an existing worktree id. -/
theorem processEntry_preserves_present (env : PEnv) (pid wid : Str)
    (acc : BuildAcc) (entry : ParsedWorktree) (acc2 : BuildAcc)
    (hp : widPresent acc.st pid wid)
    (h : processEntry env pid acc entry = Except.ok acc2) :
    widPresent acc2.st pid wid := by
  unfold processEntry at h
  cases hfind : findMetadataForEntry env acc.cands entry.path with
  | some m =>
    simp only [hfind] at h
    rw [Except.ok.injEq] at h
    rw [← h]
    exact hp
  | none =>
    simp only [hfind] at h
    cases hens : ensureWorktreeMetadata env acc.st pid entry.path
        (some (match entry.branch with
          | some b =>
            if b = [] then
              (if entry.relativePath = [] then entry.path else entry.relativePath)
            else b
          | none =>
            if entry.relativePath = [] then entry.path
            else entry.relativePath)) with
    | mk st1 mo =>
      have hpres := ensure_preserves_present env acc.st pid entry.path
        (some (match entry.branch with
          | some b =>
            if b = [] then
              (if entry.relativePath = [] then entry.path else entry.relativePath)
            else b
          | none =>
            if entry.relativePath = [] then entry.path
            else entry.relativePath)) wid hp
      rw [hens] at hpres
      cases mo with
      | some m2 =>
        simp only [hens] at h
        rw [Except.ok.injEq] at h
        rw [← h]
        exact hpres
      | none =>
        simp only [hens] at h
        cases h

theorem str_contains_iff (l : List Str) (x : Str) :
    l.contains x = true ↔ x ∈ l := List.elem_iff

/-- C7 (amended): what one listing run guarantees for each record of the
pre-run snapshot. The cleanup loop compares the record's normalized stored
path against the parsed entry paths, so a non-default record is deleted
exactly when that normalized path is absent from the run's live entries —
even when the record was matched to a live entry through symlink-resolved
real paths (see the counterexample); records whose normalized path is among
the live entry paths keep their id in the store. -/
def OrphanCleanupSpec (env : PEnv) (stF : PMState) (pid : Str)
    (parsed : List ParsedWorktree) (m : WorktreeMetadata) : Prop :=
  (normalizePath env m.path ∉ parsed.map (fun p => p.path) →
    widAbsent stF pid m.id) ∧
  (normalizePath env m.path ∈ parsed.map (fun p => p.path) →
    widPresent stF pid m.id)

/-- C7 (amended): after a successful `buildWorktreeResponses` run, each
non-default snapshot record is deleted iff its normalized stored path is not
among the run's parsed entry paths, and retained otherwise (given distinct
snapshot ids). -/
theorem orphan_cleanup (env : PEnv) (st : PMState) (pid : Str)
    (parsed : List ParsedWorktree) (stF : PMState)
    (resps : List (Str × Str × Str)) (m : WorktreeMetadata)
    (h : buildWorktreeResponses env st pid parsed = Except.ok (stF, resps))
    (hm : m ∈ (getWorktrees env st pid).2)
    (hnd : m.id ≠ defaultStr)
    (hnodup : ((getWorktrees env st pid).2.map (fun w => w.id)).Nodup) :
    OrphanCleanupSpec env stF pid parsed m := by
  unfold buildWorktreeResponses at h
  cases hlook : pmLookup st pid with
  | none =>
    simp only [hlook] at h
    cases h
  | some inst0 =>
    simp only [hlook] at h
    cases hgw : getWorktrees env st pid with
    | mk st1 ml =>
      rw [hgw] at hm hnodup
      have hm2 : m ∈ ml := hm
      have hnodup2 : (ml.map (fun w => w.id)).Nodup := hnodup
      simp only [hgw] at h
      cases hfold : parsed.foldlM (processEntry env pid) ⟨st1, ml, []⟩ with
      | error e =>
        simp only [hfold] at h
        cases h
      | ok acc =>
        simp only [hfold] at h
        rw [Except.ok.injEq, Prod.mk.injEq] at h
        obtain ⟨hstF, hresp⟩ := h
        unfold getWorktrees at hgw
        simp only [hlook] at hgw
        rw [Prod.mk.injEq] at hgw
        obtain ⟨hst1, hml⟩ := hgw
        have hinit : widPresent st1 pid m.id := by
          rw [← hst1]
          refine ⟨ensureDefaultWorktree env inst0,
            pmLookup_pmUpdate_self st pid _ inst0 hlook, ?_⟩
          rw [hml]
          exact List.mem_map_of_mem _ hm2
        have haccp : widPresent acc.st pid m.id :=
          foldlM_except_preserve (fun a => widPresent a.st pid m.id)
            (processEntry env pid) parsed
            (fun a b a2 _ hp hfb =>
              processEntry_preserves_present env pid m.id a b a2 hp hfb)
            ⟨st1, ml, []⟩ acc hinit hfold
        constructor
        · intro hnotin
          rw [← hstF]
          unfold cleanupOrphans
          refine foldl_establish_preserve (fun s2 => widAbsent s2 pid m.id)
            _ ml m hm2 ?_ ?_ acc.st
          · intro a
            rw [if_neg (by simp [hnd])]
            have hc : (parsed.map (fun p => p.path)).contains
                (normalizePath env m.path) = false := by
              rw [Bool.eq_false_iff]
              intro hc2
              exact hnotin ((str_contains_iff _ _).mp hc2)
            rw [if_neg (by rw [hc]; simp)]
            exact removeWorktree_absent env a pid m.id hnd
          · intro a b2 hb2 hp
            by_cases hd2 : (b2.id == defaultStr) = true
            · rw [if_pos hd2]
              exact hp
            · rw [if_neg hd2]
              by_cases hc2 : (parsed.map (fun p => p.path)).contains
                  (normalizePath env b2.path) = true
              · rw [if_pos hc2]
                exact hp
              · rw [if_neg hc2]
                exact removeWorktree_preserves_absent env a pid m.id b2.id hnd hp
        · intro hin
          rw [← hstF]
          unfold cleanupOrphans
          refine foldl_preserve (fun s2 => widPresent s2 pid m.id)
            _ ml ?_ acc.st haccp
          intro a b2 hb2 hp
          by_cases hd2 : (b2.id == defaultStr) = true
          · rw [if_pos hd2]
            exact hp
          · rw [if_neg hd2]
            by_cases hc2 : (parsed.map (fun p => p.path)).contains
                (normalizePath env b2.path) = true
            · rw [if_pos hc2]
              exact hp
            · rw [if_neg hc2]
              refine removeWorktree_preserves_present env a pid m.id b2.id ?_ hp
              intro he
              have hbm : b2 = m := eq_of_nodup_ids hnodup2 hb2 hm2 he.symm
              rw [hbm] at hc2
              exact hc2 ((str_contains_iff _ _).mpr hin)

/-- Environment with one symlink: `/sym/a` resolves to `/real/a`. -/
def env7c : PEnv :=
  { resolve := id
    statIsDir := fun _ => some true
    realpath := fun p => if p = "/sym/a".toList then some "/real/a".toList
      else some p
    cwd := "/".toList }

/-- A project storing metadata `w1` under the real path `/real/a`. -/
def info7c : ProjectInfo :=
  { id := "p1".toList, name := "P".toList, path := "/home/u/p".toList,
    lastAccessed := 0,
    worktrees := [⟨defaultStr, "/home/u/p".toList, defaultStr⟩,
      ⟨"w1".toList, "/real/a".toList, "T".toList⟩],
    settings := none }

def st7c : PMState := { projects := [("p1".toList, info7c)], dirty := false }

/-- The live git listing contains only the symlinked spelling of the path. -/
def parsed7c : List ParsedWorktree :=
  [⟨"/sym/a".toList, some "feat".toList, "a".toList⟩]

def out7c : PMState × List (Str × Str × Str) :=
  match buildWorktreeResponses env7c st7c "p1".toList parsed7c with
  | Except.ok pr => pr
  | Except.error _ => (st7c, [])

def info7cF : ProjectInfo := (pmLookup out7c.1 "p1".toList).getD info7c

/-- C7 counterexample to the claimed retention of metadata matched via
symlink-resolved real paths: the run matches the stored record `w1` to the
live entry `/sym/a` through `realpath` and serves its id and title, yet the
cleanup pass deletes `w1` because its normalized stored path `/real/a` is
not literally among the parsed entry paths. -/
theorem orphan_symlink_counterexample :
    buildWorktreeResponses env7c st7c "p1".toList parsed7c
      = Except.ok (out7c.1, out7c.2) ∧
    ("w1".toList, "T".toList, "/real/a".toList) ∈ out7c.2 ∧
    pmLookup out7c.1 "p1".toList = some info7cF ∧
    "w1".toList ∉ info7cF.worktrees.map (fun w => w.id) :=
  ⟨by rfl, by decide, by rfl, by decide⟩

/-- Registry for the cleanup witness: an extra record at `/gone` that no
live entry carries. -/
def info7w : ProjectInfo :=
  { id := "p1".toList, name := "P".toList, path := "/home/u/p".toList,
    lastAccessed := 0,
    worktrees := [⟨defaultStr, "/home/u/p".toList, defaultStr⟩,
      ⟨"w1".toList, "/gone".toList, "T".toList⟩],
    settings := none }

def st7w : PMState := { projects := [("p1".toList, info7w)], dirty := false }

def parsed7w : List ParsedWorktree :=
  [⟨"/home/u/p".toList, some "main".toList, []⟩]

def out7w : PMState × List (Str × Str × Str) :=
  match buildWorktreeResponses cEnv st7w "p1".toList parsed7w with
  | Except.ok pr => pr
  | Except.error _ => (st7w, [])

/-- Witness for C7 at a run whose live list lacks the stored record `w1`. -/
theorem orphan_cleanup_witness :
    (buildWorktreeResponses cEnv st7w "p1".toList parsed7w
        = Except.ok (out7w.1, out7w.2) ∧
      (⟨"w1".toList, "/gone".toList, "T".toList⟩ : WorktreeMetadata)
        ∈ (getWorktrees cEnv st7w "p1".toList).2 ∧
      ("w1".toList : Str) ≠ defaultStr ∧
      (((getWorktrees cEnv st7w "p1".toList).2.map (fun w => w.id))).Nodup) ∧
    OrphanCleanupSpec cEnv out7w.1 "p1".toList parsed7w
      ⟨"w1".toList, "/gone".toList, "T".toList⟩ :=
  ⟨⟨by rfl, by decide, by decide, by decide⟩,
    orphan_cleanup cEnv st7w "p1".toList parsed7w out7w.1 out7w.2
      ⟨"w1".toList, "/gone".toList, "T".toList⟩
      (by rfl) (by decide) (by decide) (by decide)⟩

end AgentOrange
